import Mathlib

/-!
Verification development for the iggytop harmonization pipeline
(`src/tcr_epitope/adapters/`).  Python strings are modelled as `List Char`,
Python `None` as `Option.none`, and Python exceptions as an explicit
`Except PyErr` result.  Each definition is a direct translation of the
corresponding Python function; regular expressions are translated into
explicit list scans implementing the backtracking semantics of `re` on the
character classes that occur (ASCII letters/digits/whitespace).
-/

namespace IggyTop

/-- Python exception kinds that the modelled code can raise. -/
inductive PyErr where
  | nameError
  | zeroDivisionError
  | valueError
  | keyError
  | attributeError
  | typeError
  | indexError
  deriving DecidableEq, Repr

/-- Python whitespace characters (the set recognised by `str.strip()` /
`str.split()` / `\s` on ASCII input). -/
def isPySpace (c : Char) : Bool :=
  c = ' ' || c = '\t' || c = '\n' || c = '\r' || c = '\x0b' || c = '\x0c'

/-- Python `str.strip()` with no argument: remove leading and trailing
whitespace. -/
def pyStrip (s : List Char) : List Char :=
  ((s.dropWhile isPySpace).reverse.dropWhile isPySpace).reverse

/-- Python `str.upper()` (ASCII). -/
def pyUpper (s : List Char) : List Char := s.map Char.toUpper

/-- Python `str.lower()` (ASCII). -/
def pyLower (s : List Char) : List Char := s.map Char.toLower

/-- The constant `AMINO_ACIDS` from `utils.py`: the 20 standard amino-acid
letters. -/
def aminoAcids : List Char :=
  ['A', 'C', 'D', 'E', 'F', 'G', 'H', 'I', 'K', 'L', 'M', 'N', 'P', 'Q', 'R',
   'S', 'T', 'V', 'W', 'Y']

/-- Membership test `aa in AMINO_ACIDS`. -/
def isAA (c : Char) : Bool := decide (c ∈ aminoAcids)

/-- Translation of `_is_valid_peptide_sequence` (utils.py:21).  The input is
`none` when the Python value is not a string (for example `None` or NaN),
which the `isinstance` guard rejects. -/
def isValidPeptideSequence : Option (List Char) → Bool
  | none => false
  | some s => if 2 < s.length then s.all isAA else false

/-- Python `str.lstrip("C")` specialised: drop the leading run of characters
belonging to `cs`. -/
def lstripChars (cs : List Char) (s : List Char) : List Char :=
  s.dropWhile (fun c => decide (c ∈ cs))

/-- Python `str.rstrip(...)`: drop the trailing run of characters belonging
to `cs`. -/
def rstripChars (cs : List Char) (s : List Char) : List Char :=
  (s.reverse.dropWhile (fun c => decide (c ∈ cs))).reverse

/-- The cleanup step of `_process_cdr3_sequence` (utils.py:34):
`str(seq).upper().strip().replace(" ", "").replace("\n", "")`. -/
def cleanSeq (s : List Char) : List Char :=
  (pyStrip (pyUpper s)).filter (fun c => !(c = ' ' || c = '\n'))

/-- Translation of `_process_cdr3_sequence` (utils.py:29). -/
def processCdr3Sequence (seq : Option (List Char)) (isIgh : Bool) :
    Option (List Char) :=
  match seq with
  | none => none
  | some raw =>
    let s := cleanSeq raw
    if isValidPeptideSequence (some s) = false then none
    else
      if s.head? = some 'C' ∧
          (s.getLast? = some 'F' ∨ (isIgh = true ∧ s.getLast? = some 'W')) then
        some s
      else
        let s1 := lstripChars ['C'] s
        if isIgh then some ('C' :: (rstripChars ['F', 'W'] s1 ++ ['W']))
        else some ('C' :: (rstripChars ['F'] s1 ++ ['F']))

/-- Replacement `re.sub(r"^TCR([ABGD])", r"TR\1", gene)` from
`_normalize_vdj_gene_name` (utils.py:75). -/
def tcrPrefixFix (s : List Char) : List Char :=
  match s with
  | 'T' :: 'C' :: 'R' :: c :: rest =>
    if c = 'A' ∨ c = 'B' ∨ c = 'G' ∨ c = 'D' then 'T' :: 'R' :: c :: rest
    else s
  | _ => s

/-- Scan implementing `re.sub(r"\*.*$", "", gene)` (utils.py:77).  In Python,
`.` does not match a newline and `$` matches only at the end of the string or
just before a final newline, so the substitution removes the segment starting
at the first `*` that is followed only by non-newline characters (up to the
end or up to a single final newline); a `*` with a non-final newline after it
does not match. -/
def alleleAux : List Char → List Char → List Char
  | [], acc => acc.reverse
  | c :: rest, acc =>
    if c = '*' ∧ '\n' ∉ rest then acc.reverse
    else if c = '*' ∧ rest ≠ [] ∧ '\n' ∉ rest.dropLast ∧
        rest.getLast? = some '\n' then acc.reverse ++ ['\n']
    else alleleAux rest (c :: acc)

/-- The allele-suffix removal `re.sub(r"\*.*$", "", gene)`. -/
def alleleStrip (s : List Char) : List Char := alleleAux s []

/-- Translation of `_normalize_vdj_gene_name` (utils.py:69).  `none` models a
value for which `pd.isna` is true. -/
def normalizeVdjGeneName : Option (List Char) → Option (List Char)
  | none => none
  | some g => some (pyStrip (alleleStrip (tcrPrefixFix (pyStrip g))))

/-- Modelled from the spec sentence for the allele step: "removes everything
from the first `*` onward".  Used to compare the claimed behaviour with the
actual regex semantics. -/
def dropFromFirstStar (s : List Char) : List Char :=
  s.takeWhile (fun c => c != '*')

/-! ### Basic facts about the character classes -/

theorem isAA_fixed (c : Char) (h : isAA c = true) :
    Char.toUpper c = c ∧ isPySpace c = false := by
  have hc : c ∈ aminoAcids := of_decide_eq_true h
  fin_cases hc <;> exact ⟨by decide, by decide⟩

theorem dropWhile_eq_self_of_not {p : Char → Bool} {s : List Char}
    (h : ∀ c ∈ s, p c = false) : s.dropWhile p = s := by
  cases s with
  | nil => rfl
  | cons c t =>
    rw [List.dropWhile_cons, h c (List.mem_cons_self c t)]
    simp

theorem pyStrip_eq_self_of_no_space {s : List Char}
    (h : ∀ c ∈ s, isPySpace c = false) : pyStrip s = s := by
  unfold pyStrip
  rw [dropWhile_eq_self_of_not h,
      dropWhile_eq_self_of_not (fun c hc => h c (List.mem_reverse.mp hc)),
      List.reverse_reverse]

theorem map_eq_self_of_fixed {f : Char → Char} {s : List Char}
    (h : ∀ c ∈ s, f c = c) : s.map f = s := by
  induction s with
  | nil => rfl
  | cons c t ih =>
    rw [List.map_cons, h c (List.mem_cons_self c t),
        ih (fun x hx => h x (List.mem_cons_of_mem c hx))]

theorem cleanSeq_of_allAA {s : List Char} (h : s.all isAA = true) :
    cleanSeq s = s := by
  have hmem : ∀ c ∈ s, isAA c = true := List.all_eq_true.mp h
  unfold cleanSeq
  have hup : pyUpper s = s :=
    map_eq_self_of_fixed (fun c hc => (isAA_fixed c (hmem c hc)).1)
  rw [hup, pyStrip_eq_self_of_no_space (fun c hc => (isAA_fixed c (hmem c hc)).2)]
  refine List.filter_eq_self.mpr (fun c hc => ?_)
  have := isAA_fixed c (hmem c hc)
  have h1 : ¬ (c = ' ') := by
    intro he; rw [he] at this; exact absurd this.2 (by decide)
  have h2 : ¬ (c = '\n') := by
    intro he; rw [he] at this; exact absurd this.2 (by decide)
  simp [h1, h2]

theorem valid_spec {s : List Char} :
    isValidPeptideSequence (some s) = true ↔
      2 < s.length ∧ ∀ c ∈ s, isAA c = true := by
  by_cases h : 2 < s.length <;>
    simp [isValidPeptideSequence, h, List.all_eq_true]

theorem mem_of_mem_lstrip {cs s : List Char} {c : Char}
    (h : c ∈ lstripChars cs s) : c ∈ s :=
  (List.dropWhile_sublist _).mem h

theorem mem_of_mem_rstrip {cs s : List Char} {c : Char}
    (h : c ∈ rstripChars cs s) : c ∈ s := by
  unfold rstripChars at h
  rw [List.mem_reverse] at h
  exact List.mem_reverse.mp ((List.dropWhile_sublist _).mem h)

/-! ### Shape of `_process_cdr3_sequence` results -/

theorem processCdr3_shape {s : List Char} {h : Bool} {r : List Char}
    (he : processCdr3Sequence (some s) h = some r) :
    (r.all isAA = true ∧ r.head? = some 'C' ∧
      (h = true → (r.getLast? = some 'F' ∨ r.getLast? = some 'W')) ∧
      (h = false → r.getLast? = some 'F')) := by
  unfold processCdr3Sequence at he
  by_cases hv : isValidPeptideSequence (some (cleanSeq s)) = false
  · simp only [hv, if_true] at he
    exact absurd he (by simp)
  · simp only [hv, if_false] at he
    have hvt : isValidPeptideSequence (some (cleanSeq s)) = true := by
      revert hv; cases isValidPeptideSequence (some (cleanSeq s)) <;> simp
    have hAA : ∀ c ∈ cleanSeq s, isAA c = true := (valid_spec.mp hvt).2
    by_cases hwf : (cleanSeq s).head? = some 'C' ∧
        ((cleanSeq s).getLast? = some 'F' ∨
          (h = true ∧ (cleanSeq s).getLast? = some 'W'))
    · rw [if_pos hwf] at he
      have hr : r = cleanSeq s := by
        cases he; rfl
      subst hr
      refine ⟨List.all_eq_true.mpr hAA, hwf.1, ?_, ?_⟩
      · intro _
        rcases hwf.2 with h1 | h2
        · exact Or.inl h1
        · exact Or.inr h2.2
      · intro hf
        rcases hwf.2 with h1 | h2
        · exact h1
        · rw [hf] at h2; exact absurd h2.1 (by decide)
    · rw [if_neg hwf] at he
      cases h with
      | true =>
        simp only [if_pos rfl] at he
        have hr : r = 'C' :: (rstripChars ['F', 'W']
            (lstripChars ['C'] (cleanSeq s)) ++ ['W']) := by
          cases he; rfl
        subst hr
        refine ⟨?_, by simp, ?_, ?_⟩
        · refine List.all_eq_true.mpr (fun c hc => ?_)
          rcases List.mem_cons.mp hc with h1 | h1
          · rw [h1]; decide
          · rcases List.mem_append.mp h1 with h2 | h2
            · exact hAA c (mem_of_mem_lstrip (mem_of_mem_rstrip h2))
            · rcases List.mem_singleton.mp h2 with rfl; decide
        · intro _
          refine Or.inr ?_
          rw [show ('C' :: (rstripChars ['F', 'W']
              (lstripChars ['C'] (cleanSeq s)) ++ ['W'])) =
              (('C' :: rstripChars ['F', 'W']
                (lstripChars ['C'] (cleanSeq s))) ++ ['W']) by simp]
          exact List.getLast?_concat _
        · intro hf; exact absurd hf (by decide)
      | false =>
        simp only [Bool.false_eq_true, if_neg (by exact fun h => h)] at he
        have hr : r = 'C' :: (rstripChars ['F']
            (lstripChars ['C'] (cleanSeq s)) ++ ['F']) := by
          cases he; rfl
        subst hr
        refine ⟨?_, by simp, ?_, ?_⟩
        · refine List.all_eq_true.mpr (fun c hc => ?_)
          rcases List.mem_cons.mp hc with h1 | h1
          · rw [h1]; decide
          · rcases List.mem_append.mp h1 with h2 | h2
            · exact hAA c (mem_of_mem_lstrip (mem_of_mem_rstrip h2))
            · rcases List.mem_singleton.mp h2 with rfl; decide
        · intro ht; exact absurd ht (by decide)
        · intro _
          rw [show ('C' :: (rstripChars ['F']
              (lstripChars ['C'] (cleanSeq s)) ++ ['F'])) =
              (('C' :: rstripChars ['F']
                (lstripChars ['C'] (cleanSeq s))) ++ ['F']) by simp]
          exact List.getLast?_concat _

theorem processCdr3_fix {r : List Char} {h : Bool}
    (hAA : r.all isAA = true) (hlen : 2 < r.length)
    (hC : r.head? = some 'C')
    (hend : r.getLast? = some 'F' ∨ (h = true ∧ r.getLast? = some 'W')) :
    processCdr3Sequence (some r) h = some r := by
  have hv : isValidPeptideSequence (some r) = true :=
    valid_spec.mpr ⟨hlen, List.all_eq_true.mp hAA⟩
  simp only [processCdr3Sequence, cleanSeq_of_allAA hAA, hv]
  rw [if_neg (by simp), if_pos ⟨hC, hend⟩]

/-- Claim C2, counterexample: the valid peptide "FFF" (length 3, all amino
acids) is normalized to "CF", whose length 2 fails the validator on the
second pass, so the second application returns null instead of "CF":
normalization is not idempotent on all valid peptides. -/
theorem C2_cdr3_idempotence_cex :
    isValidPeptideSequence (some "FFF".toList) = true ∧
    processCdr3Sequence (processCdr3Sequence (some "FFF".toList) false) false ≠
      processCdr3Sequence (some "FFF".toList) false := by decide

/-- Claim C2 (amended): for every valid peptide `s` and flag `h`, if the
first application of `_process_cdr3_sequence` yields a result of length > 2
(equivalently, `s` is not made up solely of leading C's and terminal
residues), then a second application returns the same result. -/
theorem C2_cdr3_idempotence (s : List Char) (h : Bool) (r : List Char)
    (hs : isValidPeptideSequence (some s) = true)
    (hr : processCdr3Sequence (some s) h = some r)
    (hlen : 2 < r.length) :
    processCdr3Sequence (processCdr3Sequence (some s) h) h =
      processCdr3Sequence (some s) h := by
  rw [hr]
  obtain ⟨hAA, hC, hW, hF⟩ := processCdr3_shape hr
  rw [processCdr3_fix hAA hlen hC ?_]
  cases h with
  | false => exact Or.inl (hF rfl)
  | true =>
    rcases hW rfl with h1 | h1
    · exact Or.inl h1
    · exact Or.inr ⟨rfl, h1⟩

/-- Claim C2 witness: a concrete instantiation of the amended idempotence
theorem at the valid peptide "CASS". -/
theorem C2_cdr3_idempotence_witness :
    processCdr3Sequence (processCdr3Sequence (some "CASS".toList) false) false =
      processCdr3Sequence (some "CASS".toList) false :=
  C2_cdr3_idempotence "CASS".toList false "CASSF".toList (by decide) (by decide)
    (by decide)

/-- Claim C4: every non-null result of `_process_cdr3_sequence` starts with
"C", contains only the 20 standard amino-acid letters, ends with "F" or "W"
when the heavy-chain flag is set and with "F" otherwise; in particular
"AAAA" maps to "CAAAAW" (heavy chain) and to "CAAAAF" otherwise. -/
theorem C4_cdr3_output_contract :
    (∀ (s : List Char) (h : Bool) (r : List Char),
        processCdr3Sequence (some s) h = some r →
        r.head? = some 'C' ∧ r.all isAA = true ∧
          (h = true → (r.getLast? = some 'F' ∨ r.getLast? = some 'W')) ∧
          (h = false → r.getLast? = some 'F'))
    ∧ processCdr3Sequence (some "AAAA".toList) true = some "CAAAAW".toList
    ∧ processCdr3Sequence (some "AAAA".toList) false = some "CAAAAF".toList := by
  refine ⟨fun s h r he => ?_, by decide, by decide⟩
  obtain ⟨h1, h2, h3, h4⟩ := processCdr3_shape he
  exact ⟨h2, h1, h3, h4⟩

/-- Claim C4 witness: the general contract applied to the concrete heavy
chain input "AAAA". -/
theorem C4_cdr3_output_contract_witness :
    "CAAAAW".toList.head? = some 'C' ∧ "CAAAAW".toList.all isAA = true ∧
      (true = true →
        ("CAAAAW".toList.getLast? = some 'F' ∨
          "CAAAAW".toList.getLast? = some 'W')) ∧
      (true = false → "CAAAAW".toList.getLast? = some 'F') :=
  C4_cdr3_output_contract.1 "AAAA".toList true "CAAAAW".toList (by decide)

/-- Claim C8: `_is_valid_peptide_sequence` returns true exactly on strings of
length > 2 made of the 20 standard amino-acid letters; a non-string input,
"AC1D" and the empty string are rejected, "ACDEFGHIKLMNPQRSTVWY" is
accepted. -/
theorem C8_validator_contract :
    (∀ s : List Char,
        isValidPeptideSequence (some s) = true ↔
          (2 < s.length ∧ ∀ c ∈ s, isAA c = true))
    ∧ isValidPeptideSequence none = false
    ∧ isValidPeptideSequence (some "AC1D".toList) = false
    ∧ isValidPeptideSequence (some "".toList) = false
    ∧ isValidPeptideSequence (some "ACDEFGHIKLMNPQRSTVWY".toList) = true :=
  ⟨fun _ => valid_spec, by decide, by decide, by decide, by decide⟩

/-- Claim C8 witness: the characterization applied to the concrete string
"ACD". -/
theorem C8_validator_contract_witness :
    isValidPeptideSequence (some "ACD".toList) = true :=
  (C8_validator_contract.1 "ACD".toList).mpr (by decide)

theorem mem_of_mem_pyStrip {s : List Char} {c : Char} (h : c ∈ pyStrip s) :
    c ∈ s := by
  unfold pyStrip at h
  rw [List.mem_reverse] at h
  have h2 := (List.dropWhile_sublist _).mem h
  rw [List.mem_reverse] at h2
  exact (List.dropWhile_sublist _).mem h2

theorem tcrPrefixFix_no_newline {s : List Char} (h : '\n' ∉ s) :
    '\n' ∉ tcrPrefixFix s := by
  unfold tcrPrefixFix
  split
  · split
    · simp_all [List.mem_cons]
    · exact h
  · exact h

theorem alleleAux_no_newline :
    ∀ s acc : List Char, '\n' ∉ s →
      alleleAux s acc = acc.reverse ++ dropFromFirstStar s := by
  intro s
  induction s with
  | nil => intro acc _; simp [alleleAux, dropFromFirstStar]
  | cons c rest ih =>
    intro acc h
    have hrest : '\n' ∉ rest := fun hm => h (List.mem_cons_of_mem c hm)
    have hstep : alleleAux (c :: rest) acc =
        if c = '*' ∧ '\n' ∉ rest then acc.reverse
        else if c = '*' ∧ rest ≠ [] ∧ '\n' ∉ rest.dropLast ∧
            rest.getLast? = some '\n' then acc.reverse ++ ['\n']
        else alleleAux rest (c :: acc) := rfl
    by_cases hc : c = '*'
    · subst hc
      rw [hstep, if_pos ⟨rfl, hrest⟩]
      simp [dropFromFirstStar]
    · rw [hstep, if_neg (fun hp => hc hp.1), if_neg (fun hp => hc hp.1),
        ih (c :: acc) hrest]
      simp [dropFromFirstStar, List.takeWhile_cons, hc]

/-- Claim C9, counterexample: on a gene string with an interior newline, the
Python pattern `\*.*$` does not anchor at the first `*` (`.` cannot cross the
newline), so `_normalize_vdj_gene_name("A*B\nC*D")` returns "A*B\nC", which
still contains a `*`; removing everything from the first `*` onward would
instead give "A". -/
theorem C9_gene_normalization_cex :
    normalizeVdjGeneName (some "A*B\nC*D".toList) = some "A*B\nC".toList ∧
    '*' ∈ "A*B\nC".toList ∧
    pyStrip (dropFromFirstStar (tcrPrefixFix (pyStrip "A*B\nC*D".toList))) =
      "A".toList := by decide

/-- Claim C9 (amended): for every gene-name string without a newline
character, `_normalize_vdj_gene_name` trims surrounding whitespace, replaces
a leading TCRA/TCRB/TCRG/TCRD prefix with TRA/TRB/TRG/TRD, and removes
everything from the first "*" onward; "TCRAV12-3*01" maps to "TRAV12-3" and
null maps to null. -/
theorem C9_gene_normalization :
    (∀ g : List Char, '\n' ∉ g →
        normalizeVdjGeneName (some g) =
          some (pyStrip (dropFromFirstStar (tcrPrefixFix (pyStrip g)))))
    ∧ normalizeVdjGeneName (some "TCRAV12-3*01".toList) =
        some "TRAV12-3".toList
    ∧ normalizeVdjGeneName none = none := by
  refine ⟨fun g hg => ?_, by decide, rfl⟩
  have h1 : '\n' ∉ pyStrip g := fun hm => hg (mem_of_mem_pyStrip hm)
  have h2 : '\n' ∉ tcrPrefixFix (pyStrip g) := tcrPrefixFix_no_newline h1
  simp [normalizeVdjGeneName, alleleStrip, alleleAux_no_newline _ [] h2]

/-- Claim C9 witness: the amended normalization applied to the concrete gene
name "TCRBV28*01". -/
theorem C9_gene_normalization_witness :
    normalizeVdjGeneName (some "TCRBV28*01".toList) =
      some (pyStrip (dropFromFirstStar (tcrPrefixFix
        (pyStrip "TCRBV28*01".toList)))) :=
  C9_gene_normalization.1 "TCRBV28*01".toList (by decide)

/-! ### The generic node generator (`base_adapter.py`)

A pandas row is modelled as a total function from column names to
`Option (List Char)`; `none` stands for a missing value (NaN).  A table is a
column list (the schema) together with its rows. -/

/- Column-name constants from `constants.py` (`REGISTRY_KEYS`). -/
namespace RK

def epitopeKey : String := "epitope_sequence"

def epitopeIedbIdKey : String := "iedb_id"

def antigenKey : String := "antigen_name"

def antigenOrganismKey : String := "antigen_organism"

def chain1Cdr3 : String := "chain_1_cdr3"

def chain2Cdr3 : String := "chain_2_cdr3"

def chain1VGene : String := "chain_1_v_call"

def chain1JGene : String := "chain_1_j_call"

def chain2VGene : String := "chain_2_v_call"

def chain2JGene : String := "chain_2_j_call"

def chain1Organism : String := "chain_1_organism"

def chain2Organism : String := "chain_2_organism"

def chain1Type : String := "chain_1_type"

def chain2Type : String := "chain_2_type"

end RK

/-- A table row: column name to optional string value (`none` = NaN). -/
def Row : Type := String → Option (List Char)

/-- A pandas DataFrame: schema plus rows. -/
structure Table where
  cols : List String
  rows : List Row

/-- A BioCypher node tuple `(id, type, properties)`. -/
structure Node where
  id : List Char
  ntype : List Char
  props : List (String × Option (List Char))
  deriving DecidableEq

/-- Error-propagating map, modelling a Python loop that can raise. -/
def mapExcept {α β : Type} (f : α → Except PyErr β) : List α → Except PyErr (List β)
  | [] => .ok []
  | a :: t =>
    match f a with
    | .error e => .error e
    | .ok b =>
      match mapExcept f t with
      | .error e => .error e
      | .ok r => .ok (b :: r)

/-- Extraction of the `_type` value: calling `.lower()` on NaN raises
`AttributeError`. -/
def ofTypeVal : Option (List Char) → Except PyErr (List Char)
  | some v => .ok v
  | none => .error .attributeError

/-- Extraction of a unique-column value for `":".join(...)`: a NaN (float)
component raises `TypeError`. -/
def ofJoinVal : Option (List Char) → Except PyErr (List Char)
  | some v => .ok v
  | none => .error .typeError

/-- Python `":".join(...)` on a list of strings. -/
def joinSep (sep : List Char) : List (List Char) → List Char
  | [] => []
  | [x] => x
  | x :: y :: rest => x ++ sep ++ joinSep sep (y :: rest)

/-- Rendering of `float("nan")` by an f-string, as appended for a truthy NaN
V-gene. -/
def nanChars : List Char := ['n', 'a', 'n']

/-- Scan implementing `re.sub("chain_\d_", "", k)` on property keys. -/
def stripChainSub : List Char → List Char
  | 'c' :: 'h' :: 'a' :: 'i' :: 'n' :: '_' :: d :: '_' :: rest2 =>
    if d.isDigit then stripChainSub rest2
    else 'c' :: stripChainSub ('h' :: 'a' :: 'i' :: 'n' :: '_' :: d :: '_' :: rest2)
  | c :: rest => c :: stripChainSub rest
  | [] => []
  termination_by l => l.length
  decreasing_by all_goals simp_arith

/-- The row filter `dropna(subset=unique_cols)`. -/
def keepRow (uniqueCols : List String) (row : Row) : Bool :=
  uniqueCols.all (fun c => (row c).isSome)

/-- Identifier construction for a non-epitope (receptor chain) row: the
lowercased type, the unique-column values, and the V-gene component when
`row.get(v_gene_key)` is truthy (a NaN value in a present column is truthy
and rendered "nan" by the f-string; an absent column gives `None`, falsy). -/
def chainNodeId (subsetCols : List String) (row : Row) (tl : List Char)
    (uvals : List (List Char)) : List Char :=
  let vKey := if RK.chain1Type ∈ subsetCols then RK.chain1VGene
              else RK.chain2VGene
  let vComp : List (List Char) :=
    if vKey ∈ subsetCols then
      match row vKey with
      | some g => if g = [] then [] else [g]
      | none => [nanChars]
    else []
  joinSep [':'] ((tl :: uvals) ++ vComp)

/-- Per-row body of `_generate_nodes_from_table` (base_adapter.py:60-96). -/
def nodeOfRow (subsetCols uniqueCols propertyCols : List String) (row : Row) :
    Except PyErr Node :=
  match (if RK.chain1Type ∈ subsetCols then ofTypeVal (row RK.chain1Type)
         else if RK.chain2Type ∈ subsetCols then ofTypeVal (row RK.chain2Type)
         else .ok "epitope".toList) with
  | .error e => .error e
  | .ok t =>
    match mapExcept (fun c => ofJoinVal (row c)) uniqueCols with
    | .error e => .error e
    | .ok uvals =>
      let tl := pyLower t
      let nid := if tl ≠ "epitope".toList then chainNodeId subsetCols row tl uvals
                 else joinSep [':'] (tl :: uvals)
      .ok ⟨nid, tl,
        propertyCols.map (fun c => (String.mk (stripChainSub c.toList), row c))⟩

/-- Translation of `_generate_nodes_from_table` (base_adapter.py:41).  The
Python default for `property_cols` is `list(set(subset) - set(unique))`,
whose ordering is unspecified; it is modelled as an order-preserving filter
(property ordering plays no role in any claim). -/
def generateNodesFromTable (table : Table) (subsetCols : List String)
    (uniqueColsOpt propertyColsOpt : Option (List String)) :
    Except PyErr (List Node) :=
  let uniqueCols := uniqueColsOpt.getD subsetCols
  let propertyCols := propertyColsOpt.getD
    (subsetCols.filter (fun c => decide (c ∉ uniqueCols)))
  if subsetCols.all (fun c => decide (c ∈ table.cols)) then
    mapExcept (nodeOfRow subsetCols uniqueCols propertyCols)
      (table.rows.filter (keepRow uniqueCols))
  else .error .keyError

theorem mapExcept_ok_length {α β : Type} {f : α → Except PyErr β} :
    ∀ {l : List α} {out : List β}, mapExcept f l = .ok out →
      out.length = l.length := by
  intro l
  induction l with
  | nil =>
    intro out h
    simp only [mapExcept] at h
    cases h
    rfl
  | cons a t ih =>
    intro out h
    simp only [mapExcept] at h
    cases hfa : f a with
    | error e =>
      rw [hfa] at h
      simp at h
    | ok b =>
      rw [hfa] at h
      cases hft : mapExcept f t with
      | error e =>
        rw [hft] at h
        simp at h
      | ok r =>
        rw [hft] at h
        simp at h
        rw [← h]
        simp [ih hft]

theorem joinSep_concat (sep g : List Char) :
    ∀ xs : List (List Char), xs ≠ [] →
      joinSep sep (xs ++ [g]) = joinSep sep xs ++ sep ++ g := by
  intro xs
  induction xs with
  | nil => intro h; exact absurd rfl h
  | cons x t ih =>
    intro _
    cases t with
    | nil => simp [joinSep]
    | cons y r =>
      have h1 : joinSep sep ((x :: y :: r) ++ [g]) =
          x ++ sep ++ joinSep sep ((y :: r) ++ [g]) := rfl
      rw [h1, ih (by simp)]
      simp [joinSep, List.append_assoc]

theorem mapExcept_ofJoinVal {uniqueCols : List String} {row : Row}
    (h : ∀ c ∈ uniqueCols, (row c).isSome = true) :
    mapExcept (fun c => ofJoinVal (row c)) uniqueCols =
      .ok (uniqueCols.map (fun c => (row c).getD [])) := by
  induction uniqueCols with
  | nil => rfl
  | cons c t ih =>
    obtain ⟨v, hv⟩ := Option.isSome_iff_exists.mp (h c (List.mem_cons_self c t))
    simp only [mapExcept]
    rw [ih (fun x hx => h x (List.mem_cons_of_mem c hx))]
    simp [ofJoinVal, hv]

theorem map_row_agrees {uniqueCols : List String} {row1 row2 : Row}
    (h : ∀ c ∈ uniqueCols, row1 c = row2 c) :
    uniqueCols.map (fun c => (row1 c).getD []) =
      uniqueCols.map (fun c => (row2 c).getD []) := by
  induction uniqueCols with
  | nil => rfl
  | cons c t ih =>
    simp [h c (List.mem_cons_self c t),
      ih (fun x hx => h x (List.mem_cons_of_mem c hx))]

/-- A concrete epitope row used for the C1 scenario. -/
def epRowA : Row := fun c =>
  if c = RK.epitopeKey then some "SIINFEKL".toList else none

/-- Claim C1, counterexample: `_generate_nodes_from_table` applies
`dropna(subset=unique_cols)` but no `drop_duplicates`; a table whose two rows
have identical unique-column values yields two nodes with the same
identifier, not one. -/
theorem C1_node_dedup_cex :
    generateNodesFromTable ⟨[RK.epitopeKey], [epRowA, epRowA]⟩ [RK.epitopeKey]
        none none =
      .ok [⟨"epitope:SIINFEKL".toList, "epitope".toList, []⟩,
           ⟨"epitope:SIINFEKL".toList, "epitope".toList, []⟩] := rfl

/-- Claim C1 (amended): the node generator drops rows with nulls in the
unique columns but does not deduplicate: every successful run emits exactly
one node per surviving row, so rows sharing the unique-column tuple produce
repeated emissions (deduplication is left to the downstream graph
assembly). -/
theorem C1_node_gen_no_dedup (table : Table) (subsetCols : List String)
    (u p : Option (List String)) (out : List Node)
    (h : generateNodesFromTable table subsetCols u p = .ok out) :
    out.length = (table.rows.filter (keepRow (u.getD subsetCols))).length := by
  simp only [generateNodesFromTable] at h
  split at h
  · exact mapExcept_ok_length h
  · simp at h

/-- Claim C1 witness: the no-dedup count law applied to the concrete
two-row table. -/
theorem C1_node_gen_no_dedup_witness :
    ([⟨"epitope:SIINFEKL".toList, "epitope".toList, []⟩,
      ⟨"epitope:SIINFEKL".toList, "epitope".toList, []⟩] : List Node).length =
      (([epRowA, epRowA] : List Row).filter (keepRow [RK.epitopeKey])).length :=
  C1_node_gen_no_dedup ⟨[RK.epitopeKey], [epRowA, epRowA]⟩ [RK.epitopeKey]
    none none _ rfl

/-- Claim C7: two rows agreeing on the unique columns (same CDR3) with a
non-epitope chain type but distinct truthy V genes produce two distinct node
identifiers, because the V gene is appended as an id component. -/
theorem C7_vgene_disambiguation (subsetCols uniqueCols propertyCols : List String)
    (row1 row2 : Row) (t g1 g2 : List Char)
    (hsub : RK.chain1Type ∈ subsetCols)
    (hvsub : RK.chain1VGene ∈ subsetCols)
    (ht1 : row1 RK.chain1Type = some t) (ht2 : row2 RK.chain1Type = some t)
    (hte : pyLower t ≠ "epitope".toList)
    (hu : ∀ c ∈ uniqueCols, row1 c = row2 c ∧ (row1 c).isSome = true)
    (hg1 : row1 RK.chain1VGene = some g1) (hg2 : row2 RK.chain1VGene = some g2)
    (hne : g1 ≠ g2) (he1 : g1 ≠ []) (he2 : g2 ≠ []) :
    ∃ n1 n2 : Node,
      nodeOfRow subsetCols uniqueCols propertyCols row1 = .ok n1 ∧
      nodeOfRow subsetCols uniqueCols propertyCols row2 = .ok n2 ∧
      n1.id ≠ n2.id := by
  have hu1 : ∀ c ∈ uniqueCols, (row1 c).isSome = true := fun c hc => (hu c hc).2
  have hu2 : ∀ c ∈ uniqueCols, (row2 c).isSome = true := by
    intro c hc
    rw [← (hu c hc).1]
    exact (hu c hc).2
  have husq : uniqueCols.map (fun c => (row1 c).getD []) =
      uniqueCols.map (fun c => (row2 c).getD []) :=
    map_row_agrees (fun c hc => (hu c hc).1)
  have e1 : nodeOfRow subsetCols uniqueCols propertyCols row1 =
      .ok ⟨joinSep [':']
            ((pyLower t :: uniqueCols.map (fun c => (row1 c).getD [])) ++ [g1]),
          pyLower t,
          propertyCols.map
            (fun c => (String.mk (stripChainSub c.toList), row1 c))⟩ := by
    simp only [nodeOfRow, if_pos hsub, ht1, ofTypeVal, mapExcept_ofJoinVal hu1,
      chainNodeId, if_pos hvsub, hg1, if_neg he1, if_pos hte]
  have e2 : nodeOfRow subsetCols uniqueCols propertyCols row2 =
      .ok ⟨joinSep [':']
            ((pyLower t :: uniqueCols.map (fun c => (row2 c).getD [])) ++ [g2]),
          pyLower t,
          propertyCols.map
            (fun c => (String.mk (stripChainSub c.toList), row2 c))⟩ := by
    simp only [nodeOfRow, if_pos hsub, ht2, ofTypeVal, mapExcept_ofJoinVal hu2,
      chainNodeId, if_pos hvsub, hg2, if_neg he2, if_pos hte]
  refine ⟨_, _, e1, e2, ?_⟩
  simp only [← husq]
  intro heq
  rw [joinSep_concat _ _ _ (by simp), joinSep_concat _ _ _ (by simp)] at heq
  exact hne (List.append_cancel_left heq)

/-- A concrete beta-chain row with V gene TRBV7-2 (C7 scenario). -/
def c7row1 : Row := fun c =>
  if c = RK.chain1Type then some "TRB".toList
  else if c = RK.chain1Cdr3 then some "CASSLGTDTQYF".toList
  else if c = RK.chain1VGene then some "TRBV7-2".toList
  else none

/-- A concrete beta-chain row with V gene TRBV9 (C7 scenario). -/
def c7row2 : Row := fun c =>
  if c = RK.chain1Type then some "TRB".toList
  else if c = RK.chain1Cdr3 then some "CASSLGTDTQYF".toList
  else if c = RK.chain1VGene then some "TRBV9".toList
  else none

/-- Claim C7 witness: the disambiguation theorem applied to the spec's
concrete scenario (identical CDR3 "CASSLGTDTQYF", V genes "TRBV7-2" and
"TRBV9"). -/
theorem C7_vgene_disambiguation_witness :
    ∃ n1 n2 : Node,
      nodeOfRow [RK.chain1Type, RK.chain1Cdr3, RK.chain1VGene] [RK.chain1Cdr3]
          [] c7row1 = .ok n1 ∧
      nodeOfRow [RK.chain1Type, RK.chain1Cdr3, RK.chain1VGene] [RK.chain1Cdr3]
          [] c7row2 = .ok n2 ∧
      n1.id ≠ n2.id :=
  C7_vgene_disambiguation _ _ _ c7row1 c7row2 "TRB".toList "TRBV7-2".toList
    "TRBV9".toList (by decide) (by decide) (by decide) (by decide) (by decide)
    (by decide) (by decide) (by decide) (by decide) (by decide) (by decide)

/-! ### The external reference resolver (`get_iedb_ids_batch`, utils.py:185)

API responses are modelled by an oracle mapping each request
(match type and epitope chunk) to the parsed JSON record list; the request
URL construction, caching and the `except` branch returning `[]` are folded
into the oracle (a failed request is an oracle answering `[]`).  The
response schema carries the fields named in the query's `select` clause;
absent antigen data is `none`/`[]` as produced by `dict.get`. -/

/-- One record of a `curated_source_antigens` entry. -/
structure AntigenRec where
  name : Option (List Char)
  source_organism_name : Option (List Char)
  deriving DecidableEq

/-- One epitope-search response record. -/
structure IedbRecord where
  structure_id : List Char
  structure_descriptions : List (List Char)
  linear_sequence : List Char
  curated_source_antigens : List AntigenRec
  deriving DecidableEq

/-- One value of the `epitope_to_iedb` dictionary. -/
structure IedbEntry where
  iri : List Char
  antigen : Option (List Char)
  organism : Option (List Char)
  deriving DecidableEq

/-- The `epitope_to_iedb` dictionary: insertion-ordered association list
with unique keys (Python dict semantics). -/
abbrev IedbDict := List (List Char × IedbEntry)

/-- The keys of the dictionary, in insertion order. -/
def dictKeys (d : IedbDict) : List (List Char) := d.map Prod.fst

/-- Python `d[k] = v`: replace in place when the key exists, append
otherwise. -/
def dictSet (d : IedbDict) (k : List Char) (v : IedbEntry) : IedbDict :=
  if k ∈ dictKeys d then d.map (fun p => if p.1 = k then (k, v) else p)
  else d ++ [(k, v)]

/-- The oracle for `_get_epitope_data`: `true` = exact pass,
`false` = substring pass. -/
def IedbOracle : Type := Bool → List (List Char) → List IedbRecord

/-- The default sentinel entry `{"iri": f"seq:{epitope}", ...}`. -/
def seqSentinel (ep : List Char) : IedbEntry :=
  ⟨"seq:".toList ++ ep, none, none⟩

/-- Entry built from a matched record: `iedb:` reference plus the first
curated source antigen's name/organism when present. -/
def entryOfMatch (m : IedbRecord) : IedbEntry :=
  match m.curated_source_antigens with
  | a :: _ => ⟨"iedb:".toList ++ m.structure_id, a.name, a.source_organism_name⟩
  | [] => ⟨"iedb:".toList ++ m.structure_id, none, none⟩

/-- Application of one exact-pass match record to the dictionary
(utils.py:218-240): the epitope string is the first structure description if
any, else the linear sequence; only an already-requested key is updated. -/
def applyExactMatch (d : IedbDict) (m : IedbRecord) : IedbDict :=
  let epitopeSeq := match m.structure_descriptions with
    | s :: _ => s
    | [] => m.linear_sequence
  if epitopeSeq ∈ dictKeys d then dictSet d epitopeSeq (entryOfMatch m) else d

/-- One exact-pass chunk (utils.py:206-240): request, default sentinels for
the whole chunk, then apply the returned matches. -/
def pass1Chunk (o : IedbOracle) (d : IedbDict) (chunk : List (List Char)) :
    IedbDict :=
  let resp := o true chunk
  let d1 := chunk.foldl (fun d ep => dictSet d ep (seqSentinel ep)) d
  resp.foldl applyExactMatch d1

/-- Comparison `n < min_length` where `none` is `float("inf")`. -/
def ltInf (n : Nat) : Option Nat → Bool
  | none => true
  | some m => n < m

/-- Length of the current best match, `float("inf")` (`none`) when absent. -/
def lenOfOpt : Option IedbRecord → Option Nat
  | none => none
  | some b => some b.linear_sequence.length

/-- The inner selection loop of the substring pass (utils.py:257-264):
fold over the response keeping `(best_match, min_length)`. -/
def bestSubstringFold (ep : List Char) (ms : List IedbRecord) :
    Option IedbRecord × Option Nat :=
  ms.foldl
    (fun acc m =>
      if ep <:+: m.linear_sequence ∧
          ltInf m.linear_sequence.length acc.2 = true
      then (some m, some m.linear_sequence.length)
      else acc)
    (none, none)

/-- Recursive form of the same selection loop, threading the current best. -/
def bestGo (ep : List Char) (cur : Option IedbRecord) :
    List IedbRecord → Option IedbRecord
  | [] => cur
  | m :: rest =>
    if ep <:+: m.linear_sequence ∧
        ltInf m.linear_sequence.length (lenOfOpt cur) = true
    then bestGo ep (some m) rest
    else bestGo ep cur rest

/-- Per-epitope update of the substring pass (utils.py:256-280). -/
def pass2Step (resp : List IedbRecord) (d : IedbDict) (ep : List Char) :
    IedbDict :=
  match (bestSubstringFold ep resp).1 with
  | some b => dictSet d ep (entryOfMatch b)
  | none => d

/-- One substring-pass chunk (utils.py:252-280). -/
def pass2Chunk (o : IedbOracle) (d : IedbDict) (chunk : List (List Char)) :
    IedbDict :=
  let resp := o false chunk
  chunk.foldl (pass2Step resp) d

/-- Fuel-driven chunking loop; with fuel at least the list length it cuts
the list into consecutive slices `l.take k`, `(l.drop k).take k`, ... -/
def chunkAux {α : Type} (k : Nat) : Nat → List α → List (List α)
  | _, [] => []
  | 0, _ => []
  | fuel + 1, a :: rest =>
    (a :: rest.take (k - 1)) :: chunkAux k fuel (rest.drop (k - 1))

/-- Chunking `epitopes[i : i + chunk_size]` for `i in range(0, n, k)`,
assuming `k ≥ 1` (the `k = 0` case is handled by `pyChunks`). -/
def chunkList {α : Type} (k : Nat) (l : List α) : List (List α) :=
  chunkAux k l.length l

/-- `range(0, n, step)` raises `ValueError` on a zero step. -/
def pyChunks {α : Type} (k : Nat) (l : List α) : Except PyErr (List (List α)) :=
  if k = 0 then .error .valueError else .ok (chunkList k l)

/-- The final match-rate statistic of `get_iedb_ids_batch` (utils.py:283-286)
divides by `len(epitopes)`. -/
def finalStats (n : Nat) (d : IedbDict) : Except PyErr IedbDict :=
  if n = 0 then .error .zeroDivisionError else .ok d

/-- Translation of `get_iedb_ids_batch` (utils.py:185-287). -/
def getIedbIdsBatch (o : IedbOracle) (chunkSize : Nat)
    (epitopes0 : List (Option (List Char))) : Except PyErr IedbDict :=
  let epitopes := epitopes0.filterMap id
  match pyChunks chunkSize epitopes with
  | .error e => .error e
  | .ok chunks1 =>
    let d1 := chunks1.foldl (pass1Chunk o) []
    let unmatched :=
      (d1.filter (fun p => decide (p.2.iri = "seq:".toList ++ p.1))).map Prod.fst
    if unmatched = [] then finalStats epitopes.length d1
    else
      match pyChunks (chunkSize / 2) unmatched with
      | .error e => .error e
      | .ok chunks2 =>
        finalStats epitopes.length (chunks2.foldl (pass2Chunk o) d1)

/-! ### Properties of the substring-fallback selection (claim C5) -/

/-- Propositional form of `n < min_length` (`none` = infinity). -/
def ltOptLen (n : Nat) : Option Nat → Prop
  | none => True
  | some m => n < m

/-- Propositional form of `n ≤ min_length` (`none` = infinity). -/
def leOptLen (n : Nat) : Option Nat → Prop
  | none => True
  | some m => n ≤ m

theorem ltInf_true_iff (n : Nat) (o : Option Nat) :
    ltInf n o = true ↔ ltOptLen n o := by
  cases o <;> simp [ltInf, ltOptLen]

theorem leOptLen_of_le_lt {b m : Nat} {o : Option Nat} (h1 : b ≤ m)
    (h2 : ltOptLen m o) : leOptLen b o := by
  cases o with
  | none => trivial
  | some c => exact le_of_lt (lt_of_le_of_lt h1 h2)

theorem ltOptLen_of_le_lt {b m : Nat} {o : Option Nat} (h1 : b ≤ m)
    (h2 : ltOptLen m o) : ltOptLen b o := by
  cases o with
  | none => trivial
  | some c => exact lt_of_le_of_lt h1 h2

theorem bestFold_eq_go (ep : List Char) :
    ∀ (ms : List IedbRecord) (cur : Option IedbRecord),
      ms.foldl
        (fun acc m =>
          if ep <:+: m.linear_sequence ∧
              ltInf m.linear_sequence.length acc.2 = true
          then (some m, some m.linear_sequence.length)
          else acc)
        (cur, lenOfOpt cur) =
      (bestGo ep cur ms, lenOfOpt (bestGo ep cur ms)) := by
  intro ms
  induction ms with
  | nil => intro cur; simp [bestGo]
  | cons m t ih =>
    intro cur
    rw [List.foldl_cons]
    simp only [bestGo]
    by_cases h : ep <:+: m.linear_sequence ∧
        ltInf m.linear_sequence.length (lenOfOpt cur) = true
    · rw [if_pos h, if_pos h]
      exact ih (some m)
    · rw [if_neg h, if_neg h]
      exact ih cur

theorem bestSubstringFold_fst (ep : List Char) (ms : List IedbRecord) :
    (bestSubstringFold ep ms).1 = bestGo ep none ms :=
  congrArg Prod.fst (bestFold_eq_go ep ms none)

theorem bestGo_no_candidates (ep : List Char) :
    ∀ (ms : List IedbRecord) (cur : Option IedbRecord),
      (∀ m ∈ ms, ¬ ep <:+: m.linear_sequence) → bestGo ep cur ms = cur := by
  intro ms
  induction ms with
  | nil => intro cur _; rfl
  | cons m t ih =>
    intro cur h
    simp only [bestGo]
    rw [if_neg (fun hp => h m (List.mem_cons_self m t) hp.1)]
    exact ih cur (fun x hx => h x (List.mem_cons_of_mem m hx))

theorem bestGo_spec (ep : List Char) :
    ∀ (ms : List IedbRecord) (cur : Option IedbRecord) (b : IedbRecord),
      bestGo ep cur ms = some b →
      (cur = some b ∨ (b ∈ ms ∧ ep <:+: b.linear_sequence)) ∧
      leOptLen b.linear_sequence.length (lenOfOpt cur) ∧
      (∀ m ∈ ms, ep <:+: m.linear_sequence →
        b.linear_sequence.length ≤ m.linear_sequence.length) ∧
      (cur = some b ∨ ∃ l₁ l₂, ms = l₁ ++ b :: l₂ ∧
        ltOptLen b.linear_sequence.length (lenOfOpt cur) ∧
        ∀ m ∈ l₁, ep <:+: m.linear_sequence →
          b.linear_sequence.length < m.linear_sequence.length) := by
  intro ms
  induction ms with
  | nil =>
    intro cur b hb
    have hcb : cur = some b := hb
    refine ⟨Or.inl hcb, ?_, ?_, Or.inl hcb⟩
    · rw [hcb]; exact le_refl _
    · intro m hm; exact absurd hm (List.not_mem_nil m)
  | cons m t ih =>
    intro cur b hb
    simp only [bestGo] at hb
    by_cases h : ep <:+: m.linear_sequence ∧
        ltInf m.linear_sequence.length (lenOfOpt cur) = true
    · rw [if_pos h] at hb
      obtain ⟨hA, hB, hC, hD⟩ := ih (some m) b hb
      have hltm : ltOptLen m.linear_sequence.length (lenOfOpt cur) :=
        (ltInf_true_iff _ _).mp h.2
      have hbm : b.linear_sequence.length ≤ m.linear_sequence.length := hB
      have hbin : b ∈ m :: t ∧ ep <:+: b.linear_sequence := by
        rcases hA with he | ⟨hmem, hinf⟩
        · have hmb : m = b := by injection he
          subst hmb
          exact ⟨List.mem_cons_self _ _, h.1⟩
        · exact ⟨List.mem_cons_of_mem m hmem, hinf⟩
      refine ⟨Or.inr hbin, leOptLen_of_le_lt hbm hltm, ?_, ?_⟩
      · intro m' hm' hinf'
        rcases List.mem_cons.mp hm' with rfl | hm'
        · exact hbm
        · exact hC m' hm' hinf'
      · rcases hD with he | ⟨l₁, l₂, hsplit, hlt', hfirst⟩
        · have hmb : m = b := by injection he
          subst hmb
          refine Or.inr ⟨[], t, rfl, hltm, ?_⟩
          intro x hx; exact absurd hx (List.not_mem_nil x)
        · refine Or.inr ⟨m :: l₁, l₂, by rw [hsplit]; rfl,
            ltOptLen_of_le_lt (le_of_lt hlt') hltm, ?_⟩
          intro x hx hinf'
          rcases List.mem_cons.mp hx with rfl | hx
          · exact hlt'
          · exact hfirst x hx hinf'
    · rw [if_neg h] at hb
      obtain ⟨hA, hB, hC, hD⟩ := ih cur b hb
      have hmlen : ep <:+: m.linear_sequence →
          ¬ ltOptLen m.linear_sequence.length (lenOfOpt cur) :=
        fun hinf hlt => h ⟨hinf, (ltInf_true_iff _ _).mpr hlt⟩
      refine ⟨?_, hB, ?_, ?_⟩
      · rcases hA with he | ⟨hmem, hinf⟩
        · exact Or.inl he
        · exact Or.inr ⟨List.mem_cons_of_mem m hmem, hinf⟩
      · intro m' hm' hinf'
        rcases List.mem_cons.mp hm' with rfl | hm'
        · have hnx := hmlen hinf'
          cases hcur : lenOfOpt cur with
          | none => rw [hcur] at hnx; exact absurd trivial hnx
          | some c =>
            rw [hcur] at hnx hB
            exact le_trans hB (Nat.le_of_not_lt hnx)
        · exact hC m' hm' hinf'
      · rcases hD with he | ⟨l₁, l₂, hsplit, hlt', hfirst⟩
        · exact Or.inl he
        · refine Or.inr ⟨m :: l₁, l₂, by rw [hsplit]; rfl, hlt', ?_⟩
          intro x hx hinf'
          rcases List.mem_cons.mp hx with rfl | hx
          · have hnx := hmlen hinf'
            cases hcur : lenOfOpt cur with
            | none => rw [hcur] at hnx; exact absurd trivial hnx
            | some c =>
              rw [hcur] at hnx hlt'
              exact lt_of_lt_of_le hlt' (Nat.le_of_not_lt hnx)
          · exact hfirst x hx hinf'

theorem pass2Step_of_none {resp : List IedbRecord} {ep : List Char}
    (h : (bestSubstringFold ep resp).1 = none) (d : IedbDict) :
    pass2Step resp d ep = d := by
  unfold pass2Step
  rw [h]

theorem pass2Step_of_some {resp : List IedbRecord} {ep : List Char}
    {b : IedbRecord} (h : (bestSubstringFold ep resp).1 = some b)
    (d : IedbDict) : pass2Step resp d ep = dictSet d ep (entryOfMatch b) := by
  unfold pass2Step
  rw [h]

/-- Claim C5: in the substring-fallback pass, when no candidate's
`linear_sequence` contains the epitope the selection is empty and the
dictionary entry (the sentinel) is left unchanged; when a best match is
selected, it contains the epitope, is of minimal sequence length among all
containing candidates, is the first such candidate in response order on
ties, and the entry is updated to its `iedb:` record. -/
theorem C5_substring_selection (ep : List Char) (ms : List IedbRecord) :
    ((∀ m ∈ ms, ¬ ep <:+: m.linear_sequence) →
      (bestSubstringFold ep ms).1 = none ∧
        ∀ d : IedbDict, pass2Step ms d ep = d) ∧
    (∀ b : IedbRecord, (bestSubstringFold ep ms).1 = some b →
      ep <:+: b.linear_sequence ∧ b ∈ ms ∧
      (∀ m ∈ ms, ep <:+: m.linear_sequence →
        b.linear_sequence.length ≤ m.linear_sequence.length) ∧
      (∃ l₁ l₂, ms = l₁ ++ b :: l₂ ∧
        ∀ m ∈ l₁, ep <:+: m.linear_sequence →
          b.linear_sequence.length < m.linear_sequence.length) ∧
      ∀ d : IedbDict, pass2Step ms d ep = dictSet d ep (entryOfMatch b)) := by
  constructor
  · intro h
    have hn : (bestSubstringFold ep ms).1 = none := by
      rw [bestSubstringFold_fst, bestGo_no_candidates ep ms none h]
    exact ⟨hn, fun d => pass2Step_of_none hn d⟩
  · intro b hb
    have hgo : bestGo ep none ms = some b := by
      rw [← bestSubstringFold_fst]; exact hb
    obtain ⟨hA, _, hC, hD⟩ := bestGo_spec ep ms none b hgo
    rcases hA with he | ⟨hmem, hinf⟩
    · exact absurd he (by simp)
    rcases hD with he | ⟨l₁, l₂, hsplit, _, hfirst⟩
    · exact absurd he (by simp)
    exact ⟨hinf, hmem, hC, ⟨l₁, l₂, hsplit, hfirst⟩,
      fun d => pass2Step_of_some hb d⟩

/-- A substring-pass candidate of length 5 containing "AAA". -/
def c5rec1 : IedbRecord := ⟨"101".toList, [], "XAAAX".toList, []⟩

/-- A substring-pass candidate of length 4 containing "AAA" (first minimal
one in response order). -/
def c5rec2 : IedbRecord := ⟨"102".toList, [], "AAAB".toList, []⟩

/-- A later substring-pass candidate, also of length 4. -/
def c5rec3 : IedbRecord := ⟨"103".toList, [], "BAAA".toList, []⟩

/-- Claim C5 witness: on a concrete response list, the shortest containing
candidate (the first on ties) is adopted and the dictionary entry is
updated to its record. -/
theorem C5_substring_selection_witness :
    pass2Step [c5rec1, c5rec2, c5rec3]
        [("AAA".toList, seqSentinel "AAA".toList)] "AAA".toList =
      dictSet [("AAA".toList, seqSentinel "AAA".toList)] "AAA".toList
        (entryOfMatch c5rec2) :=
  ((C5_substring_selection "AAA".toList [c5rec1, c5rec2, c5rec3]).2 c5rec2
    (by decide)).2.2.2.2 _

/-! ### Key-set bookkeeping of `get_iedb_ids_batch` (claim C3) -/

theorem map_congr_fun {α β : Type} {f g : α → β} (l : List α)
    (h : ∀ a, f a = g a) : l.map f = l.map g := by
  induction l with
  | nil => rfl
  | cons a t ih => simp [h a, ih]

theorem dictKeys_set_of_mem {d : IedbDict} {k : List Char} {v : IedbEntry}
    (h : k ∈ dictKeys d) : dictKeys (dictSet d k v) = dictKeys d := by
  unfold dictSet
  rw [if_pos h]
  unfold dictKeys
  rw [List.map_map]
  refine map_congr_fun d (fun p => ?_)
  by_cases hp : p.1 = k
  · simp [Function.comp, hp]
  · simp [Function.comp, hp]

theorem mem_dictKeys_set {d : IedbDict} {k k' : List Char} {v : IedbEntry} :
    k' ∈ dictKeys (dictSet d k v) ↔ (k' ∈ dictKeys d ∨ k' = k) := by
  by_cases h : k ∈ dictKeys d
  · rw [dictKeys_set_of_mem h]
    constructor
    · exact Or.inl
    · rintro (h1 | rfl)
      · exact h1
      · exact h
  · unfold dictSet
    rw [if_neg h]
    unfold dictKeys
    rw [List.map_append]
    simp only [List.mem_append, List.map_cons, List.map_nil,
      List.mem_singleton]

theorem mem_dictKeys_applyExact {d : IedbDict} {m : IedbRecord}
    {k' : List Char} :
    k' ∈ dictKeys (applyExactMatch d m) ↔ k' ∈ dictKeys d := by
  simp only [applyExactMatch]
  generalize (match m.structure_descriptions with
    | s :: _ => s
    | [] => m.linear_sequence) = es
  by_cases h : es ∈ dictKeys d
  · rw [if_pos h, mem_dictKeys_set]
    constructor
    · rintro (h1 | rfl)
      · exact h1
      · exact h
    · exact Or.inl
  · rw [if_neg h]

theorem mem_dictKeys_foldExact {k' : List Char} :
    ∀ (ms : List IedbRecord) (d : IedbDict),
      k' ∈ dictKeys (ms.foldl applyExactMatch d) ↔ k' ∈ dictKeys d := by
  intro ms
  induction ms with
  | nil => intro d; exact Iff.rfl
  | cons m t ih =>
    intro d
    rw [List.foldl_cons, ih, mem_dictKeys_applyExact]

theorem mem_dictKeys_defaults {k' : List Char} :
    ∀ (chunk : List (List Char)) (d : IedbDict),
      k' ∈ dictKeys
          (chunk.foldl (fun d ep => dictSet d ep (seqSentinel ep)) d) ↔
        (k' ∈ dictKeys d ∨ k' ∈ chunk) := by
  intro chunk
  induction chunk with
  | nil => intro d; simp
  | cons a t ih =>
    intro d
    rw [List.foldl_cons, ih, mem_dictKeys_set]
    simp [List.mem_cons]
    tauto

theorem mem_dictKeys_pass1Chunk {o : IedbOracle} {d : IedbDict}
    {chunk : List (List Char)} {k' : List Char} :
    k' ∈ dictKeys (pass1Chunk o d chunk) ↔
      (k' ∈ dictKeys d ∨ k' ∈ chunk) := by
  simp only [pass1Chunk]
  rw [mem_dictKeys_foldExact, mem_dictKeys_defaults]

theorem mem_dictKeys_pass1Fold {o : IedbOracle} {k' : List Char} :
    ∀ (chunks : List (List (List Char))) (d : IedbDict),
      k' ∈ dictKeys (chunks.foldl (pass1Chunk o) d) ↔
        (k' ∈ dictKeys d ∨ k' ∈ chunks.flatten) := by
  intro chunks
  induction chunks with
  | nil => intro d; simp
  | cons c t ih =>
    intro d
    rw [List.foldl_cons, ih, mem_dictKeys_pass1Chunk, List.flatten_cons,
      List.mem_append]
    tauto

theorem chunkAux_flatten {α : Type} (k : Nat) :
    ∀ (fuel : Nat) (l : List α), l.length ≤ fuel →
      (chunkAux k fuel l).flatten = l := by
  intro fuel
  induction fuel with
  | zero =>
    intro l h
    have hl : l = [] := List.length_eq_zero.mp (Nat.le_zero.mp h)
    subst hl
    rfl
  | succ f ih =>
    intro l h
    cases l with
    | nil => rfl
    | cons a rest =>
      simp only [chunkAux, List.flatten_cons]
      rw [ih (rest.drop (k - 1)) ?_]
      · simp [List.take_append_drop]
      · have h1 : (rest.drop (k - 1)).length ≤ rest.length := by
          simp [List.length_drop]
        have h2 : rest.length + 1 ≤ f + 1 := h
        omega

theorem chunkList_flatten {α : Type} (k : Nat) (l : List α) :
    (chunkList k l).flatten = l :=
  chunkAux_flatten k l.length l (le_refl _)

theorem mem_pass2Step_mono {resp : List IedbRecord} {d : IedbDict}
    {ep k' : List Char} (h : k' ∈ dictKeys d) :
    k' ∈ dictKeys (pass2Step resp d ep) := by
  cases hb : (bestSubstringFold ep resp).1 with
  | none => rw [pass2Step_of_none hb]; exact h
  | some b => rw [pass2Step_of_some hb]; exact mem_dictKeys_set.mpr (Or.inl h)

theorem mem_pass2Step_sub {resp : List IedbRecord} {d : IedbDict}
    {ep k' : List Char} (h : k' ∈ dictKeys (pass2Step resp d ep)) :
    k' ∈ dictKeys d ∨ k' = ep := by
  cases hb : (bestSubstringFold ep resp).1 with
  | none => rw [pass2Step_of_none hb] at h; exact Or.inl h
  | some b => rw [pass2Step_of_some hb] at h; exact mem_dictKeys_set.mp h

theorem mem_pass2_fold_mono {resp : List IedbRecord} {k' : List Char} :
    ∀ (chunk : List (List Char)) (d : IedbDict), k' ∈ dictKeys d →
      k' ∈ dictKeys (chunk.foldl (pass2Step resp) d) := by
  intro chunk
  induction chunk with
  | nil => intro d h; exact h
  | cons a t ih =>
    intro d h
    rw [List.foldl_cons]
    exact ih _ (mem_pass2Step_mono h)

theorem mem_pass2_fold_sub {resp : List IedbRecord} {k' : List Char} :
    ∀ (chunk : List (List Char)) (d : IedbDict),
      k' ∈ dictKeys (chunk.foldl (pass2Step resp) d) →
        k' ∈ dictKeys d ∨ k' ∈ chunk := by
  intro chunk
  induction chunk with
  | nil => intro d h; exact Or.inl h
  | cons a t ih =>
    intro d h
    rw [List.foldl_cons] at h
    rcases ih _ h with h1 | h1
    · rcases mem_pass2Step_sub h1 with h2 | rfl
      · exact Or.inl h2
      · exact Or.inr (List.mem_cons_self _ _)
    · exact Or.inr (List.mem_cons_of_mem _ h1)

theorem mem_pass2Chunks_mono {o : IedbOracle} {k' : List Char} :
    ∀ (chunks : List (List (List Char))) (d : IedbDict), k' ∈ dictKeys d →
      k' ∈ dictKeys (chunks.foldl (pass2Chunk o) d) := by
  intro chunks
  induction chunks with
  | nil => intro d h; exact h
  | cons c t ih =>
    intro d h
    rw [List.foldl_cons]
    exact ih _ (mem_pass2_fold_mono c d h)

theorem mem_pass2Chunks_sub {o : IedbOracle} {k' : List Char} :
    ∀ (chunks : List (List (List Char))) (d : IedbDict),
      k' ∈ dictKeys (chunks.foldl (pass2Chunk o) d) →
        k' ∈ dictKeys d ∨ k' ∈ chunks.flatten := by
  intro chunks
  induction chunks with
  | nil => intro d h; exact Or.inl h
  | cons c t ih =>
    intro d h
    rw [List.foldl_cons] at h
    rcases ih _ h with h1 | h1
    · rcases mem_pass2_fold_sub c d h1 with h2 | h2
      · exact Or.inl h2
      · refine Or.inr ?_
        rw [List.flatten_cons]
        exact List.mem_append.mpr (Or.inl h2)
    · refine Or.inr ?_
      rw [List.flatten_cons]
      exact List.mem_append.mpr (Or.inr h1)

theorem unmatched_sub_keys {d : IedbDict} {k' : List Char}
    (h : k' ∈ (d.filter
        (fun p => decide (p.2.iri = "seq:".toList ++ p.1))).map Prod.fst) :
    k' ∈ dictKeys d := by
  obtain ⟨p, hp, rfl⟩ := List.mem_map.mp h
  exact List.mem_map_of_mem Prod.fst (List.mem_of_mem_filter hp)

theorem getIedbIdsBatch_unfold (o : IedbOracle) (cs : Nat)
    (eps0 : List (Option (List Char))) (h0 : cs ≠ 0) (h2 : cs / 2 ≠ 0) :
    getIedbIdsBatch o cs eps0 =
      if (((chunkList cs (eps0.filterMap id)).foldl (pass1Chunk o) []).filter
            (fun p => decide (p.2.iri = "seq:".toList ++ p.1))).map Prod.fst
          = [] then
        finalStats (eps0.filterMap id).length
          ((chunkList cs (eps0.filterMap id)).foldl (pass1Chunk o) [])
      else
        finalStats (eps0.filterMap id).length
          ((chunkList (cs / 2)
              ((((chunkList cs (eps0.filterMap id)).foldl (pass1Chunk o)
                  []).filter
                (fun p => decide (p.2.iri = "seq:".toList ++ p.1))).map
                Prod.fst)).foldl
            (pass2Chunk o)
            ((chunkList cs (eps0.filterMap id)).foldl (pass1Chunk o) [])) := by
  simp only [getIedbIdsBatch, pyChunks, if_neg h0, if_neg h2]

/-- Claim C3, counterexample: on an empty input list the final match-rate
statistic divides by `len(epitopes) = 0`, so `get_iedb_ids_batch` raises
`ZeroDivisionError` instead of returning the (empty) map. -/
theorem C3_resolver_keyset_cex :
    getIedbIdsBatch (fun _ _ => []) 150 [] = .error .zeroDivisionError := rfl

/-- Claim C3 (amended): provided at least one non-null epitope is present
(and the chunk size is at least 2, as the default 150 is), the returned
map's key set equals the set of non-null input epitopes exactly — every
input epitope has an entry (resolved or sentinel) and no other key
appears. -/
theorem C3_resolver_keyset (o : IedbOracle) (chunkSize : Nat)
    (epitopes0 : List (Option (List Char)))
    (hcs : 2 ≤ chunkSize) (hne : epitopes0.filterMap id ≠ []) :
    ∃ d : IedbDict, getIedbIdsBatch o chunkSize epitopes0 = .ok d ∧
      ∀ k : List Char, k ∈ dictKeys d ↔ k ∈ epitopes0.filterMap id := by
  have hcs0 : chunkSize ≠ 0 := by omega
  have hcs2 : chunkSize / 2 ≠ 0 := by omega
  have hlen : (epitopes0.filterMap id).length ≠ 0 :=
    fun h => hne (List.length_eq_zero.mp h)
  rw [getIedbIdsBatch_unfold o chunkSize epitopes0 hcs0 hcs2]
  have hkeys1 : ∀ k : List Char,
      k ∈ dictKeys ((chunkList chunkSize (epitopes0.filterMap id)).foldl
        (pass1Chunk o) []) ↔ k ∈ epitopes0.filterMap id := by
    intro k
    rw [mem_dictKeys_pass1Fold, chunkList_flatten]
    simp [dictKeys]
  have hfs : ∀ d : IedbDict,
      finalStats (epitopes0.filterMap id).length d = .ok d := by
    intro d
    unfold finalStats
    rw [if_neg hlen]
  by_cases hu : (((chunkList chunkSize (epitopes0.filterMap id)).foldl
      (pass1Chunk o) []).filter
        (fun p => decide (p.2.iri = "seq:".toList ++ p.1))).map Prod.fst = []
  · rw [if_pos hu, hfs]
    exact ⟨_, rfl, hkeys1⟩
  · rw [if_neg hu, hfs]
    refine ⟨_, rfl, ?_⟩
    intro k
    constructor
    · intro hk
      rcases mem_pass2Chunks_sub _ _ hk with h1 | h1
      · exact (hkeys1 k).mp h1
      · rw [chunkList_flatten] at h1
        exact (hkeys1 k).mp (unmatched_sub_keys h1)
    · intro hk
      exact mem_pass2Chunks_mono _ _ ((hkeys1 k).mpr hk)

/-- Claim C3 witness: the key-set law applied to a concrete one-epitope
input with an empty-response oracle. -/
theorem C3_resolver_keyset_witness :
    ∃ d : IedbDict,
      getIedbIdsBatch (fun _ _ => []) 150 [some "SIINFEKL".toList] = .ok d ∧
      ∀ k : List Char, k ∈ dictKeys d ↔
        k ∈ ([some "SIINFEKL".toList] :
          List (Option (List Char))).filterMap id :=
  C3_resolver_keyset (fun _ _ => []) 150 [some "SIINFEKL".toList]
    (by omega) (by decide)

/-! ### Species/organism normalization (`mapping_utils.py`)

HTTP requests are modelled by oracles: `LabelOracle` maps a request URL to
`none` (any exception: network error, bad status, JSON error — caught by the
surrounding `try`) or `some lbl` (a successful response whose parsed label
field is `lbl`, itself optional since `.get` can return `None`).  A Zooma
annotation request is modelled likewise by a list of results. -/

/-- Outcome of an HTTP GET + JSON label extraction. -/
def LabelOracle : Type := List Char → Option (Option (List Char))

/-- One Zooma annotation result (`confidence` and `semanticTags` fields). -/
structure ZoomaResult where
  confidence : List Char
  semanticTags : List (List Char)

/-- Python `str.startswith("http")`. -/
def isHttp (s : List Char) : Bool := "http".toList.isPrefixOf s

/-- Generic Python dict assignment on an insertion-ordered association
list. -/
def dictSetG {β : Type} (d : List (List Char × β)) (k : List Char) (v : β) :
    List (List Char × β) :=
  if k ∈ d.map Prod.fst then d.map (fun p => if p.1 = k then (k, v) else p)
  else d ++ [(k, v)]

/-- First-occurrence deduplication, as `pandas.Series.unique`. -/
def pdUniqueAux : List (List Char) → List (List Char) → List (List Char)
  | [], _ => []
  | a :: t, seen =>
    if a ∈ seen then pdUniqueAux t seen else a :: pdUniqueAux t (a :: seen)

/-- `series.dropna().unique().tolist()` on an already non-null list. -/
def pdUnique (l : List (List Char)) : List (List Char) := pdUniqueAux l []

/-- Percent-encoding `urllib.parse.quote(s, safe="")` (ASCII input): keep
only unreserved characters, escape the rest as uppercase `%XX`. -/
def hexDigit (n : Nat) : Char :=
  if n < 10 then Char.ofNat (48 + n) else Char.ofNat (55 + n)

/-- Encoding of a single character for `quote`. -/
def pyQuoteChar (c : Char) : List Char :=
  if c.isAlpha ∨ c.isDigit ∨ c = '_' ∨ c = '.' ∨ c = '-' ∨ c = '~' then [c]
  else ['%', hexDigit (c.toNat / 16), hexDigit (c.toNat % 16)]

/-- `urllib.parse.quote(s, safe="")`. -/
def pyQuote (s : List Char) : List Char := (s.map pyQuoteChar).flatten

/-- The suffix after the last occurrence of `sep`, i.e.
`s.split(sep)[-1]` for a nonempty separator. -/
def afterLastSubAux (sep : List Char) : Nat → List Char → List Char →
    List Char
  | 0, _, ans => ans
  | fuel + 1, s, ans =>
    match s with
    | [] => ans
    | _ :: rest =>
      if sep.isPrefixOf s then
        afterLastSubAux sep fuel (s.drop sep.length) (s.drop sep.length)
      else afterLastSubAux sep fuel rest ans

/-- `s.split(sep)[-1]`. -/
def afterLastSub (sep s : List Char) : List Char :=
  afterLastSubAux sep s.length s s

/-- Translation of `get_label_from_semantic_tag` (mapping_utils.py:90):
dispatch on URI shape, build the provider URL, issue the GET; any exception
or an unrecognized shape yields `(None, None)`. -/
def getLabelFromSemanticTag (o : LabelOracle) (uri : List Char) :
    Option (List Char) × Option (List Char) :=
  if "obo/".toList <:+: uri then
    let term := afterLastSub "obo/".toList uri
    let ontology := pyLower (term.takeWhile (fun c => c != '_'))
    let fullUri := "http://purl.obolibrary.org/obo/".toList ++ term
    let encoded := pyQuote (pyQuote fullUri)
    let olsUrl := "https://www.ebi.ac.uk/ols4/api/ontologies/".toList ++
      ontology ++ "/terms/".toList ++ encoded
    match o olsUrl with
    | none => (none, none)
    | some lbl => (lbl, some fullUri)
  else if "ontology.iedb.org/ontology/".toList <:+: uri then
    match o (uri ++ ".json".toList) with
    | none => (none, none)
    | some lbl => (lbl, some uri)
  else (none, none)

/-- The `manual_disambiguation` table (mapping_utils.py:22), in insertion
order. -/
def manualDisambiguation : List (List Char × List Char) :=
  [("AdV".toList, "Human adenovirus".toList),
   ("CMV".toList, "Cytomegalovirus".toList),
   ("DENV".toList, "Dengue virus".toList),
   ("EBV".toList, "Human gammaherpesvirus 4".toList),
   ("HCV".toList, "Hepatitis C virus".toList),
   ("HHV".toList, "Human herpesvirus".toList),
   ("HIV".toList, "Human immunodeficiency virus".toList),
   ("HPV".toList, "Human papillomavirus".toList),
   ("HTLV".toList, "Human T-cell leukemia virus".toList),
   ("HSV".toList, "Herpes simplex virus".toList),
   ("InfluenzaA".toList, "Influenza A virus".toList),
   ("LCMV".toList, "Lymphocytic choriomeningitis virus".toList),
   ("MCPyV".toList, "Merkel cell polyomavirus".toList),
   ("McpyV".toList, "Merkel cell polyomavirus".toList),
   ("Mtb".toList, "Mycobacterium tuberculosis".toList),
   ("SARS-CoV1".toList, "Severe acute respiratory syndrome coronavirus".toList),
   ("SARS-CoV2".toList,
    "Severe acute respiratory syndrome coronavirus 2".toList),
   ("SARS-CoV".toList, "Severe acute respiratory syndrome coronavirus".toList),
   ("SIV".toList, "Simian immunodeficiency virus".toList),
   ("YFV".toList, "Yellow fever virus".toList)]

/-- `re.sub(r"^([a-zA-Z]+)(\d+)(?![a-zA-Z])", r"\1 \2", term)`
(mapping_utils.py:52).  With backtracking, the anchored pattern matches iff
the string starts with a letter run followed by a digit run and either the
digit run has length ≥ 2 (the group can shrink so that the lookahead sees a
digit) or the character after the digits is not a letter; the replacement
inserts one space between the letter run and the first digit. -/
def stepLetterDigit (s : List Char) : List Char :=
  let l := s.takeWhile (fun c => c.isAlpha)
  let r1 := s.dropWhile (fun c => c.isAlpha)
  let d := r1.takeWhile (fun c => c.isDigit)
  let r2 := r1.dropWhile (fun c => c.isDigit)
  if l ≠ [] ∧ d ≠ [] ∧ (2 ≤ d.length ∨
      (match r2.head? with
       | some c => !c.isAlpha
       | none => true) = true) then l ++ ' ' :: r1
  else s

/-- The first matching manual-disambiguation prefix, in dict insertion
order (mapping_utils.py:53-59). -/
def applyManual (s : List Char) : List Char :=
  match manualDisambiguation.find? (fun p => p.1.isPrefixOf s) with
  | some p => p.2 ++ s.drop p.1.length
  | none => s

/-- `re.sub(r"([-_/])(?=\d)", " ", q)` (mapping_utils.py:63). -/
def stepSepDigit : List Char → List Char
  | [] => []
  | [c] => [c]
  | c :: d :: rest =>
    (if (c = '-' ∨ c = '_' ∨ c = '/') ∧ d.isDigit then ' ' else c) ::
      stepSepDigit (d :: rest)

/-- Opening bracket class `[\(\[]`. -/
def isOpenBr (c : Char) : Bool := c = '(' ∨ c = '['

/-- Closing bracket class `[\)\]]`. -/
def isCloseBr (c : Char) : Bool := c = ')' ∨ c = ']'

/-- Does `re` match `\s*[\(\[].*[\)\]]` at the head of `s`?  If so, return
the remainder after the greedy match (`.*` cannot cross a newline, and with
backtracking it extends to the last closing bracket in the newline-free
stretch after the opener). -/
def brMatchAt (s : List Char) : Option (List Char) :=
  let r := s.dropWhile isPySpace
  match r with
  | c :: tail =>
    if isOpenBr c then
      let pfx := tail.takeWhile (fun x => x != '\n')
      if pfx.filter isCloseBr = [] then none
      else some ((pfx.reverse.takeWhile (fun x => !(isCloseBr x))).reverse ++
        tail.drop pfx.length)
    else none
  | [] => none

/-- Global substitution `re.sub(r"\s*[\(\[].*[\)\]]", "", q)`
(mapping_utils.py:67), left-to-right scan. -/
def rbAux : Nat → List Char → List Char
  | _, [] => []
  | 0, s => s
  | fuel + 1, c :: rest =>
    match brMatchAt (c :: rest) with
    | some rem => rbAux fuel rem
    | none => c :: rbAux fuel rest

/-- Bracket-content removal applied to the whole string. -/
def removeBrackets (s : List Char) : List Char := rbAux s.length s

/-- Word-character class `\w` (ASCII). -/
def isWordChar (c : Char) : Bool := c.isAlphanum ∨ c = '_'

/-- The alternation `(strain|str\.|subsp\.|variant|genotype)` in pattern
order. -/
def strainKeywords : List (List Char) :=
  ["strain".toList, "str.".toList, "subsp.".toList, "variant".toList,
   "genotype".toList]

/-- Try the keyword alternation at the head of `s` (case-insensitively),
followed by `\s+[^\s]+`; return the matched length.  A keyword that matches
but is not followed by whitespace and a token falls through to the next
alternative. -/
def strainTryKw : List (List Char) → List Char → Option Nat
  | [], _ => none
  | kw :: rest, s =>
    if pyLower (s.take kw.length) = kw then
      let after := s.drop kw.length
      let wsp := after.takeWhile isPySpace
      let tok := (after.dropWhile isPySpace).takeWhile
        (fun c => isPySpace c = false)
      if wsp ≠ [] ∧ tok ≠ [] then some (kw.length + wsp.length + tok.length)
      else strainTryKw rest s
    else strainTryKw rest s

/-- Scan for
`re.sub(r"\b(strain|str\.|subsp\.|variant|genotype)\s+[^\s]+", "", q,
flags=re.IGNORECASE)` (mapping_utils.py:69).  `prevWord` tracks whether the
previous character is a word character (the `\b` boundary: every keyword
starts with a letter). -/
def strainScan : Nat → Bool → List Char → List Char
  | _, _, [] => []
  | 0, _, s => s
  | fuel + 1, prevWord, c :: rest =>
    if prevWord = false then
      match strainTryKw strainKeywords (c :: rest) with
      | some n =>
        strainScan fuel
          (match ((c :: rest).take n).getLast? with
           | some lc => isWordChar lc
           | none => prevWord) ((c :: rest).drop n)
      | none => c :: strainScan fuel (isWordChar c) rest
    else c :: strainScan fuel (isWordChar c) rest

/-- The full strain/variant qualifier removal. -/
def strainRemove (s : List Char) : List Char := strainScan s.length false s

/-- CamelCase split `re.sub(r"(?<=[a-z])(?=[A-Z])", " ", q)`
(mapping_utils.py:72). -/
def camelSplit : List Char → List Char
  | [] => []
  | [c] => [c]
  | c :: d :: rest =>
    if c.isLower ∧ d.isUpper then c :: ' ' :: camelSplit (d :: rest)
    else c :: camelSplit (d :: rest)

/-- Python `str.split()` with no separator: whitespace-run split, no empty
pieces. -/
def pySplitAux : Nat → List Char → List (List Char)
  | _, [] => []
  | 0, _ => []
  | fuel + 1, s =>
    let s1 := s.dropWhile isPySpace
    match s1 with
    | [] => []
    | _ :: _ =>
      let w := s1.takeWhile (fun c => isPySpace c = false)
      w :: pySplitAux fuel (s1.drop w.length)

/-- Python `str.split()`. -/
def pySplit (s : List Char) : List (List Char) := pySplitAux s.length s

/-- Python `str.isalpha()` (ASCII). -/
def pyIsAlpha (w : List Char) : Bool := w ≠ [] ∧ w.all (fun c => c.isAlpha)

/-- Python `str.isupper()` (ASCII): at least one cased character and all
cased characters uppercase. -/
def pyIsUpper (w : List Char) : Bool :=
  w.filter (fun c => c.isAlpha) ≠ [] ∧
    (w.filter (fun c => c.isAlpha)).all (fun c => c.isUpper)

/-- Per-word case normalization (mapping_utils.py:82-87): lowercase every
word unless it is a fully-uppercase alphabetic acronym. -/
def normalizeWord (w : List Char) : List Char :=
  if pyIsUpper w = false ∨ pyIsAlpha w = false then pyLower w else w

/-- The lowercase SARS-CoV-2 spellings checked at mapping_utils.py:74-77. -/
def sars2Check1 : List Char :=
  "severe acute respiratory syndrome coronavirus 2".toList

/-- The second (typo) spelling checked at mapping_utils.py:76. -/
def sars2Check2 : List Char :=
  "severe acute respiratory coronavirus 2".toList

/-- The canonical SARS-CoV-2 literal. -/
def sars2Canonical : List Char :=
  "Severe acute respiratory syndrome coronavirus 2".toList

/-- The non-URI branch of `normalize_species` (mapping_utils.py:45-88).
`query_term[0]` raises `IndexError` on an empty string, and an empty word
list leaves `normalized_words` unbound (`NameError` at the `return`). -/
def normalizeSpeciesLocal (term : List Char) : Except PyErr (List Char) :=
  let t1 := pyStrip term
  let t2 := stepLetterDigit t1
  let q1 := applyManual t2
  let q2 := q1.map (fun c => if c = '_' then ' ' else c)
  let q3 := stepSepDigit q2
  match q3 with
  | [] => .error .indexError
  | c :: rest =>
    let q4 := c.toUpper :: rest
    let q5 := removeBrackets q4
    let q6 := strainRemove q5
    let q7 := if '-' ∉ q6 then camelSplit q6 else q6
    let q8 := if sars2Check1 <:+: pyLower q7 ∨ sars2Check2 <:+: pyLower q7
              then sars2Canonical else q7
    match pySplit q8 with
    | [] => .error .nameError
    | w :: ws => .ok (joinSep [' '] (w :: ws.map normalizeWord))

/-- Translation of the inner `normalize_species` (mapping_utils.py:45): a
URI term is replaced by its fetched ontology label (possibly `None`); any
other term goes through the local regex pipeline. -/
def normalizeSpecies (o : LabelOracle) (term : List Char) :
    Except PyErr (Option (List Char)) :=
  if isHttp term then .ok (getLabelFromSemanticTag o term).1
  else
    match normalizeSpeciesLocal term with
    | .error e => .error e
    | .ok v => .ok (some v)

/-- Translation of `get_zooma_label` (mapping_utils.py:132): a failed
request returns the term itself; otherwise the first HIGH/GOOD-confidence
result with a semantic tag decides the outcome (label if truthy, else the
term); no confident hit returns `None`. -/
def zoomaFind (o : LabelOracle) (term : Option (List Char)) :
    List ZoomaResult → Option (List Char)
  | [] => none
  | r :: rest =>
    if pyUpper r.confidence = "HIGH".toList ∨
        pyUpper r.confidence = "GOOD".toList then
      match r.semanticTags with
      | tag :: _ =>
        match (getLabelFromSemanticTag o tag).1 with
        | some l => if l ≠ [] then some l else term
        | none => term
      | [] => zoomaFind o term rest
    else zoomaFind o term rest

/-- `get_zooma_label` proper, over the request oracle `zo`. -/
def getZoomaLabel (o : LabelOracle)
    (zo : Option (List Char) → Option (List ZoomaResult))
    (term : Option (List Char)) : Option (List Char) :=
  match zo term with
  | none => term
  | some results => zoomaFind o term results

/-- The dict comprehension
`{term: normalize_species(term) for term in terms if term}`. -/
def buildNormalized (o : LabelOracle) :
    List (List Char) → List (List Char × Option (List Char)) →
      Except PyErr (List (List Char × Option (List Char)))
  | [], acc => .ok acc
  | t :: rest, acc =>
    match normalizeSpecies o t with
    | .error e => .error e
    | .ok v => buildNormalized o rest (dictSetG acc t v)

/-- The optional Zooma pass (mapping_utils.py:173-181). -/
def zoomaPass (o : LabelOracle)
    (zo : Option (List Char) → Option (List ZoomaResult))
    (items : List (List Char × Option (List Char))) :
    List (List Char × Option (List Char)) :=
  items.foldl
    (fun acc p =>
      dictSetG acc p.1
        (match getZoomaLabel o zo p.2 with
         | some zr => some zr
         | none => p.2)) []

/-- Translation of `map_species_terms` (mapping_utils.py:13). -/
def mapSpeciesTerms (o : LabelOracle)
    (zo : Option (List Char) → Option (List ZoomaResult)) (zooma : Bool)
    (terms0 : List (Option (List Char))) :
    Except PyErr (List (List Char × Option (List Char))) :=
  let terms := terms0.filterMap id
  match buildNormalized o (terms.filter (fun t => t ≠ [])) [] with
  | .error e => .error e
  | .ok normalized =>
    .ok (if zooma then zoomaPass o zo normalized else normalized)

/-! ### Lookup lemmas for ordered dictionaries -/

theorem lookup_cons {β : Type} (k a : List Char) (b : β)
    (t : List (List Char × β)) :
    List.lookup k ((a, b) :: t) =
      if k = a then some b else List.lookup k t := by
  by_cases h : k = a
  · rw [if_pos h]
    have hb : (k == a) = true := by rw [h]; exact beq_self_eq_true a
    rw [List.lookup, hb]
  · rw [if_neg h]
    have hb : (k == a) = false := beq_eq_false_iff_ne.mpr h
    rw [List.lookup, hb]

theorem lookup_map_replace {β : Type} (k : List Char) (v : β) :
    ∀ d : List (List Char × β), k ∈ d.map Prod.fst →
      List.lookup k (d.map (fun p => if p.1 = k then (k, v) else p)) =
        some v := by
  intro d
  induction d with
  | nil => intro h; simp at h
  | cons p t ih =>
    intro h
    rw [List.map_cons]
    by_cases hp : p.1 = k
    · rw [if_pos hp, lookup_cons, if_pos rfl]
    · rw [if_neg hp]
      have hk : k ∈ t.map Prod.fst := by
        rw [List.map_cons] at h
        rcases List.mem_cons.mp h with he | hm
        · exact absurd he.symm hp
        · exact hm
      rw [show (p : List Char × β) = (p.1, p.2) from rfl, lookup_cons,
        if_neg (fun he => hp he.symm)]
      exact ih hk

theorem lookup_append_one {β : Type} (k : List Char) (v : β) :
    ∀ d : List (List Char × β), k ∉ d.map Prod.fst →
      List.lookup k (d ++ [(k, v)]) = some v := by
  intro d
  induction d with
  | nil => intro _; rw [List.nil_append, lookup_cons, if_pos rfl]
  | cons p t ih =>
    intro h
    have h1 : k ≠ p.1 := fun he =>
      h (by rw [List.map_cons]; exact List.mem_cons.mpr (Or.inl he))
    have h2 : k ∉ t.map Prod.fst := fun hm =>
      h (by rw [List.map_cons]; exact List.mem_cons.mpr (Or.inr hm))
    rw [List.cons_append, show (p : List Char × β) = (p.1, p.2) from rfl,
      lookup_cons, if_neg h1]
    exact ih h2

theorem lookup_append_other {β : Type} (k k' : List Char) (v : β)
    (h : k' ≠ k) :
    ∀ d : List (List Char × β),
      List.lookup k' (d ++ [(k, v)]) = List.lookup k' d := by
  intro d
  induction d with
  | nil => rw [List.nil_append, lookup_cons, if_neg h]
  | cons p t ih =>
    rw [List.cons_append, show (p : List Char × β) = (p.1, p.2) from rfl,
      lookup_cons, lookup_cons]
    by_cases hp : k' = p.1
    · rw [if_pos hp, if_pos hp]
    · rw [if_neg hp, if_neg hp, ih]

theorem lookup_map_replace_other {β : Type} (k k' : List Char) (v : β)
    (h : k' ≠ k) :
    ∀ d : List (List Char × β),
      List.lookup k' (d.map (fun p => if p.1 = k then (k, v) else p)) =
        List.lookup k' d := by
  intro d
  induction d with
  | nil => rfl
  | cons p t ih =>
    rw [List.map_cons]
    by_cases hp : p.1 = k
    · rw [if_pos hp, lookup_cons,
        show (p : List Char × β) = (p.1, p.2) from rfl, lookup_cons,
        if_neg h, if_neg (fun he : k' = p.1 => h (hp ▸ he)), ih]
    · rw [if_neg hp, show (p : List Char × β) = (p.1, p.2) from rfl,
        lookup_cons, lookup_cons]
      by_cases hq : k' = p.1
      · rw [if_pos hq, if_pos hq]
      · rw [if_neg hq, if_neg hq, ih]

theorem lookup_dictSetG_self {β : Type} (k : List Char) (v : β)
    (d : List (List Char × β)) : (dictSetG d k v).lookup k = some v := by
  unfold dictSetG
  by_cases h : k ∈ d.map Prod.fst
  · rw [if_pos h]; exact lookup_map_replace k v d h
  · rw [if_neg h]; exact lookup_append_one k v d h

theorem lookup_dictSetG_other {β : Type} {k k' : List Char} (v : β)
    (h : k' ≠ k) (d : List (List Char × β)) :
    (dictSetG d k v).lookup k' = d.lookup k' := by
  unfold dictSetG
  by_cases hm : k ∈ d.map Prod.fst
  · rw [if_pos hm]; exact lookup_map_replace_other k k' v h d
  · rw [if_neg hm]; exact lookup_append_other k k' v h d

/-! ### Per-term behaviour of `map_species_terms` (claim C6) -/

theorem buildNormalized_pres {o : LabelOracle} {t : List Char}
    {v : Option (List Char)} :
    ∀ (ts : List (List Char)) (acc m : List (List Char × Option (List Char))),
      buildNormalized o ts acc = .ok m → t ∉ ts →
      acc.lookup t = some v → m.lookup t = some v := by
  intro ts
  induction ts with
  | nil =>
    intro acc m h _ hl
    simp only [buildNormalized] at h
    cases h
    exact hl
  | cons a rest ih =>
    intro acc m h ht hl
    simp only [buildNormalized] at h
    cases hn : normalizeSpecies o a with
    | error e => rw [hn] at h; simp at h
    | ok w =>
      rw [hn] at h
      have hta : t ≠ a := fun he => ht (he ▸ List.mem_cons_self a rest)
      exact ih _ _ h (fun hm => ht (List.mem_cons_of_mem a hm))
        (by rw [lookup_dictSetG_other w hta]; exact hl)

theorem buildNormalized_mem {o : LabelOracle} :
    ∀ (ts : List (List Char)) (acc m : List (List Char × Option (List Char))),
      buildNormalized o ts acc = .ok m →
      ∀ t ∈ ts, ∃ v, normalizeSpecies o t = .ok v ∧ m.lookup t = some v := by
  intro ts
  induction ts with
  | nil => intro acc m _ t ht; exact absurd ht (List.not_mem_nil t)
  | cons a rest ih =>
    intro acc m h t ht
    simp only [buildNormalized] at h
    cases hn : normalizeSpecies o a with
    | error e => rw [hn] at h; simp at h
    | ok w =>
      rw [hn] at h
      by_cases htr : t ∈ rest
      · exact ih _ _ h t htr
      · have hta : t = a := by
          rcases List.mem_cons.mp ht with he | hm
          · exact he
          · exact absurd hm htr
        subst hta
        exact ⟨w, hn,
          buildNormalized_pres rest _ m h htr (lookup_dictSetG_self t w _)⟩

theorem buildNormalized_total {o : LabelOracle} :
    ∀ (ts : List (List Char)) (acc : List (List Char × Option (List Char))),
      (∀ t ∈ ts, ∃ v, normalizeSpecies o t = .ok v) →
      ∃ m, buildNormalized o ts acc = .ok m := by
  intro ts
  induction ts with
  | nil => intro acc _; exact ⟨acc, rfl⟩
  | cons a rest ih =>
    intro acc h
    obtain ⟨v, hv⟩ := h a (List.mem_cons_self a rest)
    obtain ⟨m, hm⟩ := ih (dictSetG acc a v)
      (fun t ht => h t (List.mem_cons_of_mem a ht))
    refine ⟨m, ?_⟩
    simp only [buildNormalized]
    rw [hv]
    exact hm

/-- Claim C6, counterexample: a term that is a URI of unrecognized shape
(neither an OBO purl nor an IEDB ontology IRI) is deterministically mapped
to null — `normalize_species` returns the label from
`get_label_from_semantic_tag`, which is `(None, None)` here — contradicting
"never to null" and "still maps to a non-null string".  The same happens
for a recognised URI whose label fetch fails. -/
theorem C6_species_external_fallback_cex :
    mapSpeciesTerms (fun _ => none) (fun _ => none) false
        [some "http://example.com/x".toList] =
      .ok [("http://example.com/x".toList, none)] := rfl

/-- Claim C6 (amended): with the Zooma pass off (the default), no external
failure can raise out of `map_species_terms`: a result map is always
produced when every term is a URI, each URI term maps to the (possibly
null) label returned by `get_label_from_semantic_tag`, and each non-URI
term maps to its locally regex-normalized form — never null and identical
under every oracle, since no external call touches it. -/
theorem C6_species_external_fallback :
    (∀ (o : LabelOracle)
        (zo : Option (List Char) → Option (List ZoomaResult))
        (terms0 : List (Option (List Char)))
        (m : List (List Char × Option (List Char))) (t : List Char),
        mapSpeciesTerms o zo false terms0 = .ok m →
        t ∈ terms0.filterMap id → t ≠ [] →
        ∃ v, m.lookup t = some v ∧
          (isHttp t = true → v = (getLabelFromSemanticTag o t).1) ∧
          (isHttp t = false → v.isSome = true ∧
            ∀ (o' : LabelOracle)
              (zo' : Option (List Char) → Option (List ZoomaResult))
              (m' : List (List Char × Option (List Char))),
              mapSpeciesTerms o' zo' false terms0 = .ok m' →
              m'.lookup t = some v))
    ∧ (∀ (o : LabelOracle)
        (zo : Option (List Char) → Option (List ZoomaResult))
        (terms0 : List (Option (List Char))),
        (∀ t ∈ terms0.filterMap id, isHttp t = true) →
        ∃ m, mapSpeciesTerms o zo false terms0 = .ok m) := by
  constructor
  · intro o zo terms0 m t hm ht hte
    simp only [mapSpeciesTerms] at hm
    cases hb : buildNormalized o
        ((terms0.filterMap id).filter (fun t => t ≠ [])) [] with
    | error e => rw [hb] at hm; simp at hm
    | ok normalized =>
      rw [hb] at hm
      simp only [Bool.false_eq_true, if_false] at hm
      have hmn : m = normalized := by
        cases hm; rfl
      subst hmn
      have htf : t ∈ (terms0.filterMap id).filter (fun t => t ≠ []) :=
        List.mem_filter.mpr ⟨ht, decide_eq_true hte⟩
      obtain ⟨v, hv, hl⟩ := buildNormalized_mem _ _ _ hb t htf
      refine ⟨v, hl, ?_, ?_⟩
      · intro hhttp
        rw [normalizeSpecies, if_pos hhttp] at hv
        cases hv
        rfl
      · intro hhttp
        have hveq : ∃ w, v = some w := by
          rw [normalizeSpecies, if_neg (by simp [hhttp])] at hv
          cases hloc : normalizeSpeciesLocal t with
          | error e => rw [hloc] at hv; simp at hv
          | ok w =>
            rw [hloc] at hv
            cases hv
            exact ⟨w, rfl⟩
        obtain ⟨w, rfl⟩ := hveq
        refine ⟨rfl, ?_⟩
        intro o' zo' m' hm'
        simp only [mapSpeciesTerms] at hm'
        cases hb' : buildNormalized o'
            ((terms0.filterMap id).filter (fun t => t ≠ [])) [] with
        | error e => rw [hb'] at hm'; simp at hm'
        | ok normalized' =>
          rw [hb'] at hm'
          simp only [Bool.false_eq_true, if_false] at hm'
          have hmn' : m' = normalized' := by
            cases hm'; rfl
          subst hmn'
          obtain ⟨v', hv', hl'⟩ := buildNormalized_mem _ _ _ hb' t htf
          have hsame : normalizeSpecies o' t = normalizeSpecies o t := by
            rw [normalizeSpecies, normalizeSpecies,
              if_neg (by simp [hhttp]), if_neg (by simp [hhttp])]
          rw [hsame, hv] at hv'
          cases hv'
          exact hl'
  · intro o zo terms0 hall
    obtain ⟨m, hm⟩ := buildNormalized_total (o := o)
      ((terms0.filterMap id).filter (fun t => t ≠ [])) []
      (fun t ht => by
        have hhttp : isHttp t = true :=
          hall t (List.mem_filter.mp ht).1
        exact ⟨(getLabelFromSemanticTag o t).1,
          by rw [normalizeSpecies, if_pos hhttp]⟩)
    refine ⟨m, ?_⟩
    simp only [mapSpeciesTerms]
    rw [hm]
    simp

/-- Claim C6 witness: the no-raise part applied to a concrete all-URI term
list under an always-failing oracle. -/
theorem C6_species_external_fallback_witness :
    ∃ m, mapSpeciesTerms (fun _ => none) (fun _ => none) false
        [some "http://example.com/x".toList] = .ok m :=
  C6_species_external_fallback.2 (fun _ => none) (fun _ => none)
    [some "http://example.com/x".toList] (by decide)

/-! ### `harmonize_sequences` (utils.py:82) -/

/-- Translation of `_process_epitope_sequence` (utils.py:57): keep the part
before the first "+", uppercase, remove all whitespace. -/
def processEpitopeSequence : Option (List Char) → Option (List Char)
  | none => none
  | some s => some (((s.takeWhile (fun c => c != '+')).map Char.toUpper).filter
      (fun c => isPySpace c = false))

/-- Column assignment `table[col] = table.apply(...)`: replaces an existing
column, appends a new one to the schema. -/
def tableSetCol (t : Table) (col : String) (f : Row → Option (List Char)) :
    Table :=
  ⟨if col ∈ t.cols then t.cols else t.cols ++ [col],
   t.rows.map (fun r => fun c => if c = col then f r else r c)⟩

/-- One guarded gene-column normalization pass (utils.py:114-116). -/
def geneStep (t : Table) (col : String) : Table :=
  if col ∈ t.cols then
    tableSetCol t col (fun r => normalizeVdjGeneName (r col))
  else t

/-- Scan for the non-greedy `re.sub(r"\[.*?\]", "", s)` of
`map_antigen_names`: each `[` with a `]` later in the same line is removed
together with the content up to the first such `]`. -/
def rmSqAux : Nat → List Char → List Char
  | _, [] => []
  | 0, s => s
  | fuel + 1, c :: rest =>
    if c = '[' then
      match rest.dropWhile (fun x => !(x = ']' ∨ x = '\n')) with
      | ']' :: after => rmSqAux fuel after
      | _ => '[' :: rmSqAux fuel rest
    else c :: rmSqAux fuel rest

/-- `re.sub(r"\[.*?\]", "", s)`. -/
def removeSquareBrackets (s : List Char) : List Char := rmSqAux s.length s

/-- Translation of `map_antigen_names` (mapping_utils.py:188): strip,
remove bracketed segments, collapse whitespace; the map is keyed by the
stripped original. -/
def mapAntigenNames (names : List (List Char)) :
    List (List Char × List Char) :=
  names.foldl
    (fun acc name =>
      if name = [] then acc
      else
        let original := pyStrip name
        let cleaned :=
          joinSep [' '] (pySplit (pyStrip (removeSquareBrackets original)))
        dictSetG acc original cleaned) []

/-- The antigen/organism backfill for one row (utils.py:153-159):
`organism_mapping[epitope]` raises `KeyError` when the antigen is recorded
but the organism is null. -/
def fillRow (emap : IedbDict) (r : Row) : Except PyErr Row :=
  if (r RK.antigenKey).isNone ∨ (r RK.antigenOrganismKey).isNone then
    match r RK.epitopeKey with
    | none => .ok r
    | some ep =>
      match emap.lookup ep with
      | none => .ok r
      | some e =>
        match e.antigen with
        | none => .ok r
        | some a =>
          match e.organism with
          | none => .error .keyError
          | some og => .ok (fun c =>
              if c = RK.antigenKey then some a
              else if c = RK.antigenOrganismKey then some og
              else r c)
  else .ok r

/-- The post-lookup part of the IEDB enrichment (utils.py:125-159): add the
IRI column and backfill antigen/organism pairs. -/
def afterEmap (t : Table) (emap : IedbDict) : Except PyErr Table :=
  let t1 := tableSetCol t RK.epitopeIedbIdKey (fun r =>
    match r RK.epitopeKey with
    | none => none
    | some ep => (emap.lookup ep).map (fun e => e.iri))
  let t2 := if RK.antigenOrganismKey ∈ t1.cols then t1
            else tableSetCol t1 RK.antigenOrganismKey (fun _ => none)
  let t3 := if RK.antigenKey ∈ t2.cols then t2
            else tableSetCol t2 RK.antigenKey (fun _ => none)
  match mapExcept (fillRow emap) t3.rows with
  | .error e => .error e
  | .ok rows2 => .ok ⟨t3.cols, rows2⟩

/-- The epitope-to-IEDB mapping step (utils.py:119-159).  When the IEDB-id
column is absent, `valid_epitopes` is computed (a `KeyError` if the epitope
column is missing too); `epitope_map` is assigned only when at least one
non-null epitope exists, yet it is referenced unconditionally afterwards —
an empty epitope set therefore raises `NameError`. -/
def iedbStep (io : IedbOracle) (t : Table) : Except PyErr Table :=
  if RK.epitopeIedbIdKey ∈ t.cols then .ok t
  else if RK.epitopeKey ∉ t.cols then .error .keyError
  else
    let validEpitopes :=
      pdUnique ((t.rows.map (fun r => r RK.epitopeKey)).filterMap id)
    if 0 < validEpitopes.length then
      match getIedbIdsBatch io 150 (validEpitopes.map some) with
      | .error e => .error e
      | .ok emap => afterEmap t emap
    else .error .nameError

/-- One guarded species-harmonization pass over a column
(utils.py:162-176). -/
def speciesStep (lo : LabelOracle)
    (zo : Option (List Char) → Option (List ZoomaResult)) (t : Table)
    (col : String) : Except PyErr Table :=
  if col ∈ t.cols then
    match mapSpeciesTerms lo zo false
        ((pdUnique ((t.rows.map (fun r => r col)).filterMap id)).map some) with
    | .error e => .error e
    | .ok mapping =>
      .ok (tableSetCol t col (fun r =>
        match r col with
        | none => none
        | some v => (mapping.lookup v).bind id))
  else .ok t

/-- The antigen-name cleanup step (utils.py:179-180); the column access is
unguarded, so a missing antigen column raises `KeyError`. -/
def antigenStep (t : Table) : Except PyErr Table :=
  if RK.antigenKey ∉ t.cols then .error .keyError
  else
    let mapping := mapAntigenNames
      (pdUnique ((t.rows.map (fun r => r RK.antigenKey)).filterMap id))
    .ok (tableSetCol t RK.antigenKey (fun r =>
      match r RK.antigenKey with
      | none => none
      | some v => mapping.lookup v))

/-- One guarded CDR3-cleaning pass (utils.py:94-101): applied only when
both the CDR3 column and the chain-type column are present; the heavy-chain
flag is `row[type_col] == "IGH"`. -/
def cdr3Step (t : Table) (cdr3Col typeCol : String) : Table :=
  if cdr3Col ∈ t.cols ∧ typeCol ∈ t.cols then
    tableSetCol t cdr3Col (fun r =>
      processCdr3Sequence (r cdr3Col)
        (decide (r typeCol = some "IGH".toList)))
  else t

/-- The guarded epitope-cleaning pass (utils.py:104-105). -/
def epitopeCleanStep (t : Table) : Table :=
  if RK.epitopeKey ∈ t.cols then
    tableSetCol t RK.epitopeKey (fun r =>
      processEpitopeSequence (r RK.epitopeKey))
  else t

/-- The sequence of in-place column cleaning passes of
`harmonize_sequences` before the IEDB lookup (utils.py:93-116): CDR3
cleaning for both chains, epitope cleaning, V/J-gene normalization. -/
def preSteps (t : Table) : Table :=
  geneStep (geneStep (geneStep (geneStep
    (epitopeCleanStep (cdr3Step (cdr3Step t RK.chain1Cdr3 RK.chain1Type)
      RK.chain2Cdr3 RK.chain2Type))
    RK.chain1VGene) RK.chain1JGene) RK.chain2VGene) RK.chain2JGene

/-- Translation of `harmonize_sequences` (utils.py:82-182). -/
def harmonizeSequences (io : IedbOracle) (lo : LabelOracle)
    (zo : Option (List Char) → Option (List ZoomaResult)) (table : Table) :
    Except PyErr Table :=
  let t4 := preSteps table
  match iedbStep io t4 with
  | .error e => .error e
  | .ok t5 =>
    match speciesStep lo zo t5 RK.antigenOrganismKey with
    | .error e => .error e
    | .ok t6 =>
      match speciesStep lo zo t6 RK.chain1Organism with
      | .error e => .error e
      | .ok t7 =>
        match speciesStep lo zo t7 RK.chain2Organism with
        | .error e => .error e
        | .ok t8 => antigenStep t8

/-! ### The `NameError` hole of `harmonize_sequences` (claim C10) -/

theorem tableSetCol_cols_of_mem {t : Table} {col : String}
    {f : Row → Option (List Char)} (h : col ∈ t.cols) :
    (tableSetCol t col f).cols = t.cols := by
  unfold tableSetCol
  rw [if_pos h]

theorem cdr3Step_cols (t : Table) (c ty : String) :
    (cdr3Step t c ty).cols = t.cols := by
  unfold cdr3Step
  by_cases h : c ∈ t.cols ∧ ty ∈ t.cols
  · rw [if_pos h]; exact tableSetCol_cols_of_mem h.1
  · rw [if_neg h]

theorem epitopeCleanStep_cols (t : Table) :
    (epitopeCleanStep t).cols = t.cols := by
  unfold epitopeCleanStep
  by_cases h : RK.epitopeKey ∈ t.cols
  · rw [if_pos h]; exact tableSetCol_cols_of_mem h
  · rw [if_neg h]

theorem geneStep_cols (t : Table) (col : String) :
    (geneStep t col).cols = t.cols := by
  unfold geneStep
  by_cases h : col ∈ t.cols
  · rw [if_pos h]; exact tableSetCol_cols_of_mem h
  · rw [if_neg h]

theorem tableSetCol_epnull {t : Table} {col : String}
    {f : Row → Option (List Char)}
    (h : ∀ r ∈ t.rows, r RK.epitopeKey = none)
    (hcol : ∀ r ∈ t.rows, RK.epitopeKey = col → f r = none) :
    ∀ r ∈ (tableSetCol t col f).rows, r RK.epitopeKey = none := by
  intro r hr
  obtain ⟨r0, hr0, rfl⟩ := List.mem_map.mp hr
  show (if RK.epitopeKey = col then f r0 else r0 RK.epitopeKey) = none
  by_cases hc : RK.epitopeKey = col
  · rw [if_pos hc]; exact hcol r0 hr0 hc
  · rw [if_neg hc]; exact h r0 hr0

theorem cdr3Step_epnull {t : Table} {c ty : String}
    (hne : RK.epitopeKey ≠ c)
    (h : ∀ r ∈ t.rows, r RK.epitopeKey = none) :
    ∀ r ∈ (cdr3Step t c ty).rows, r RK.epitopeKey = none := by
  unfold cdr3Step
  by_cases hg : c ∈ t.cols ∧ ty ∈ t.cols
  · rw [if_pos hg]
    exact tableSetCol_epnull h (fun r _ he => absurd he hne)
  · rw [if_neg hg]; exact h

theorem epitopeCleanStep_epnull {t : Table}
    (h : ∀ r ∈ t.rows, r RK.epitopeKey = none) :
    ∀ r ∈ (epitopeCleanStep t).rows, r RK.epitopeKey = none := by
  unfold epitopeCleanStep
  by_cases hg : RK.epitopeKey ∈ t.cols
  · rw [if_pos hg]
    refine tableSetCol_epnull h (fun r hr _ => ?_)
    rw [h r hr]
    rfl
  · rw [if_neg hg]; exact h

theorem geneStep_epnull {t : Table} {col : String}
    (hne : RK.epitopeKey ≠ col)
    (h : ∀ r ∈ t.rows, r RK.epitopeKey = none) :
    ∀ r ∈ (geneStep t col).rows, r RK.epitopeKey = none := by
  unfold geneStep
  by_cases hg : col ∈ t.cols
  · rw [if_pos hg]
    exact tableSetCol_epnull h (fun r _ he => absurd he hne)
  · rw [if_neg hg]; exact h

theorem iedbStep_nameError {io : IedbOracle} {t : Table}
    (hep : RK.epitopeKey ∈ t.cols) (hiedb : RK.epitopeIedbIdKey ∉ t.cols)
    (hnull : ∀ r ∈ t.rows, r RK.epitopeKey = none) :
    iedbStep io t = .error .nameError := by
  have hempty : (t.rows.map (fun r => r RK.epitopeKey)).filterMap id = [] := by
    rw [List.filterMap_map]
    refine List.filterMap_eq_nil.mpr (fun r hr => ?_)
    exact hnull r hr
  simp only [iedbStep]
  rw [if_neg hiedb, if_neg (not_not_intro hep), hempty,
    if_neg (by decide : ¬ 0 < (pdUnique ([] : List (List Char))).length)]

set_option maxHeartbeats 2000000 in
/-- Claim C10: when the input table has the epitope column, lacks the
IEDB-id column, and every epitope value is null, `harmonize_sequences`
references `epitope_map` outside the guard that defines it and raises
`NameError` instead of returning the harmonized table — it is total only
when at least one non-null epitope exists or the IEDB-id column is already
present. -/
theorem C10_harmonize_nameError (io : IedbOracle) (lo : LabelOracle)
    (zo : Option (List Char) → Option (List ZoomaResult)) (table : Table)
    (hep : RK.epitopeKey ∈ table.cols)
    (hiedb : RK.epitopeIedbIdKey ∉ table.cols)
    (hnull : ∀ r ∈ table.rows, r RK.epitopeKey = none) :
    harmonizeSequences io lo zo table = .error .nameError := by
  have hnull4 : ∀ r ∈ (preSteps table).rows, r RK.epitopeKey = none := by
    unfold preSteps
    exact geneStep_epnull (by decide)
      (geneStep_epnull (by decide)
        (geneStep_epnull (by decide)
          (geneStep_epnull (by decide)
            (epitopeCleanStep_epnull
              (cdr3Step_epnull (by decide)
                (cdr3Step_epnull (by decide) hnull))))))
  have hcols4 : (preSteps table).cols = table.cols := by
    unfold preSteps
    rw [geneStep_cols, geneStep_cols, geneStep_cols, geneStep_cols,
      epitopeCleanStep_cols, cdr3Step_cols, cdr3Step_cols]
  simp only [harmonizeSequences]
  rw [iedbStep_nameError (hcols4 ▸ hep) (hcols4 ▸ hiedb) hnull4]

/-- A concrete one-column, one-row table whose epitope value is null. -/
def c10table : Table := ⟨[RK.epitopeKey], [fun _ => none]⟩

/-- Claim C10 witness: the `NameError` theorem applied to the concrete
all-null table. -/
theorem C10_harmonize_nameError_witness :
    harmonizeSequences (fun _ _ => []) (fun _ => none) (fun _ => none)
        c10table = .error .nameError :=
  C10_harmonize_nameError (fun _ _ => []) (fun _ => none) (fun _ => none)
    c10table (by decide) (by decide)
    (fun r hr => by
      rcases List.mem_singleton.mp hr with rfl
      rfl)

end IggyTop
